import Mathlib

/-!
Verification of the VanityMask search-engine core.

The development shallowly embeds the arithmetic and enumeration engine of the
repository (src/Vanity.cpp, src/GPU/GPUCompute.h, src/StegoTarget.h) into Lean.
256-bit machine integers are modelled as natural numbers with explicit
reductions; the four 64-bit limbs of the C representation correspond to the
digits of the number in base 2^64.  Field elements are natural numbers reduced
mod the secp256k1 prime; scalars are natural numbers reduced mod the curve
order at the places where the code reduces them.
-/

set_option maxRecDepth 100000

namespace VanityMask

/-! ### secp256k1 constants

The endomorphism constants are copied from the hexadecimal literals in
VanitySearch::VanitySearch (src/Vanity.cpp).  The field prime, curve order and
generator coordinates live in the (external) Secp256K1 collaborator; their
standard values are modelled from the spec, which fixes the curve to
secp256k1 with p = 2^256 - 2^32 - 977. -/

/-- Field prime p of secp256k1 (modelled from the spec: p = 2^256 - 2^32 - 977). -/
def secpP : ℕ := 0xFFFFFFFFFFFFFFFFFFFFFFFFFFFFFFFFFFFFFFFFFFFFFFFFFFFFFFFEFFFFFC2F

/-- Order n of the secp256k1 group (modelled from the spec; the source's secp->order). -/
def secpN : ℕ := 0xFFFFFFFFFFFFFFFFFFFFFFFFFFFFFFFEBAAEDCE6AF48A03BBFD25E8CD0364141

/-- Endomorphism constant beta (src/Vanity.cpp, SetBase16 literal). -/
def beta : ℕ := 0x7ae96a2b657c07106e64479eac3434e99cf0497512f58995c1396c28719501ee

/-- Endomorphism constant lambda (src/Vanity.cpp, SetBase16 literal). -/
def lambda : ℕ := 0x5363ad4cc05c30e0a5261c028812645a122e22ea20816678df02967c1b23bd72

/-- Endomorphism constant beta2 (src/Vanity.cpp, SetBase16 literal). -/
def beta2 : ℕ := 0x851695d49a83f8ef919bb86153cbcb16630fb68aed0a766a3ec693d68e6afa40

/-- Endomorphism constant lambda2 (src/Vanity.cpp, SetBase16 literal). -/
def lambda2 : ℕ := 0xac9c52b33fa3cf1f5ad9e3fd77ed9ba4a880b9fc8ec739c2e0cfc810b51283ce

/-- Generator X coordinate (modelled from the spec scenario S2). -/
def genX : ℕ := 0x79BE667EF9DCBBAC55A06295CE870B07029BFCDB2DCE28D959F2815B16F81798

/-- Generator Y coordinate (modelled from the spec scenario S2). -/
def genY : ℕ := 0x483ADA7726A3C4655DA4FBFC0E1108A8FD17B448A68554199C47D08FFB10D4B8

/-! ### Limb and byte views of 256-bit values -/

/-- Limb i (little-endian, 64-bit) of a 256-bit value: the entry of the
`uint64_t[4]` representation used throughout the GPU kernels. -/
def limb (x i : ℕ) : ℕ := x / 2 ^ (64 * i) % 2 ^ 64

/-- Big-endian byte j of a 256-bit value: the array produced by Int::Get32Bytes
(modelled from the spec's 256-bit big-endian serialization; byte 0 is the most
significant byte). -/
def byteBE (x j : ℕ) : ℕ := x / 2 ^ (8 * (31 - j)) % 2 ^ 8

lemma byteBE_lt (x j : ℕ) : byteBE x j < 2 ^ 8 := Nat.mod_lt _ (by norm_num)

/-- Folding a value below 2^m into a multiple of 2^m with bitwise or is plain
addition. -/
lemma mul_pow_lor_eq_add (c b m : ℕ) (hb : b < 2 ^ m) :
    (c * 2 ^ m) ||| b = c * 2 ^ m + b := by
  induction m generalizing b c with
  | zero =>
    interval_cases b
    simp
  | succ m ih =>
    have hdecomp : Nat.bit (Nat.testBit b 0) (b >>> 1) = b :=
      Nat.bit_testBit_zero_shiftRight_one b
    have hc : c * 2 ^ (m + 1) = Nat.bit false (c * 2 ^ m) := by
      rw [Nat.bit_val]
      simp
      ring
    have hb2 : b >>> 1 < 2 ^ m := by
      rw [Nat.shiftRight_one]
      rw [pow_succ] at hb
      omega
    calc (c * 2 ^ (m + 1)) ||| b
        = Nat.bit false (c * 2 ^ m) ||| Nat.bit (Nat.testBit b 0) (b >>> 1) := by
          rw [hdecomp, ← hc]
      _ = Nat.bit (false || Nat.testBit b 0) ((c * 2 ^ m) ||| (b >>> 1)) :=
          Nat.lor_bit ..
      _ = Nat.bit (Nat.testBit b 0) (c * 2 ^ m + b >>> 1) := by
          rw [Bool.false_or, ih _ _ hb2]
      _ = c * 2 ^ (m + 1) + b := by
          rw [Nat.bit_val, Nat.shiftRight_one]
          have h0 : (Nat.testBit b 0).toNat = b % 2 := by
            rcases Nat.mod_two_eq_zero_or_one b with h | h <;>
              simp [Nat.testBit_zero, h]
          rw [h0]
          have : 2 * (b / 2) + b % 2 = b := by omega
          ring_nf
          omega

/-! ### Claim C2: the steganography mask predicate (CPU and GPU)

GPU side: CheckStegoPoint (src/GPU/GPUCompute.h) compares the four limbs of
the candidate X coordinate against the constant-memory target and mask,
aborting at the first differing limb.  CPU side: VanitySearch::checkStegoMask
(src/Vanity.cpp) first serializes the X coordinate with Get32Bytes (big
endian) and repacks the bytes into four little-endian limbs, then performs
the same limbwise comparison. -/

/-- GPU steganography predicate (CheckStegoPoint, src/GPU/GPUCompute.h):
limbwise comparison of (px & mask) with (value & mask); the early-exit loop is
the conjunction of the four limb tests. -/
def gpuStegoMatch (px value mask : ℕ) : Bool :=
  decide (limb px 0 &&& limb mask 0 = limb value 0 &&& limb mask 0) &&
  decide (limb px 1 &&& limb mask 1 = limb value 1 &&& limb mask 1) &&
  decide (limb px 2 &&& limb mask 2 = limb value 2 &&& limb mask 2) &&
  decide (limb px 3 &&& limb mask 3 = limb value 3 &&& limb mask 3)

/-- Limb repacking in VanitySearch::checkStegoMask (src/Vanity.cpp): limb 3-j
is assembled by or-ing big-endian bytes j*8+b of the X coordinate into byte
position 7-b.  Here the limb index i corresponds to 3-j, and the loop over
b = 0..7 is unrolled, with the shift amounts (7-b)*8 written out. -/
def cpuStegoLimb (x i : ℕ) : ℕ :=
  ((((((((0 : ℕ)
    ||| byteBE x ((3 - i) * 8 + 0) * 2 ^ 56)
    ||| byteBE x ((3 - i) * 8 + 1) * 2 ^ 48)
    ||| byteBE x ((3 - i) * 8 + 2) * 2 ^ 40)
    ||| byteBE x ((3 - i) * 8 + 3) * 2 ^ 32)
    ||| byteBE x ((3 - i) * 8 + 4) * 2 ^ 24)
    ||| byteBE x ((3 - i) * 8 + 5) * 2 ^ 16)
    ||| byteBE x ((3 - i) * 8 + 6) * 2 ^ 8)
    ||| byteBE x ((3 - i) * 8 + 7) * 2 ^ 0

/-- CPU steganography predicate (VanitySearch::checkStegoMask,
src/Vanity.cpp): the repacked limbs are compared exactly like on the GPU. -/
def cpuStegoMatch (x value mask : ℕ) : Bool :=
  decide (cpuStegoLimb x 0 &&& limb mask 0 = limb value 0 &&& limb mask 0) &&
  decide (cpuStegoLimb x 1 &&& limb mask 1 = limb value 1 &&& limb mask 1) &&
  decide (cpuStegoLimb x 2 &&& limb mask 2 = limb value 2 &&& limb mask 2) &&
  decide (cpuStegoLimb x 3 &&& limb mask 3 = limb value 3 &&& limb mask 3)

/-- Or-ing eight bytes into their descending byte positions is the base-256
recomposition. -/
lemma orPack8 (B0 B1 B2 B3 B4 B5 B6 B7 : ℕ)
    (_h0 : B0 < 2 ^ 8) (h1 : B1 < 2 ^ 8) (h2 : B2 < 2 ^ 8) (h3 : B3 < 2 ^ 8)
    (h4 : B4 < 2 ^ 8) (h5 : B5 < 2 ^ 8) (h6 : B6 < 2 ^ 8) (h7 : B7 < 2 ^ 8) :
    ((((((((0 : ℕ) ||| B0 * 2 ^ 56) ||| B1 * 2 ^ 48) ||| B2 * 2 ^ 40)
      ||| B3 * 2 ^ 32) ||| B4 * 2 ^ 24) ||| B5 * 2 ^ 16) ||| B6 * 2 ^ 8)
      ||| B7 * 2 ^ 0 =
    B0 * 2 ^ 56 + B1 * 2 ^ 48 + B2 * 2 ^ 40 + B3 * 2 ^ 32 + B4 * 2 ^ 24 +
      B5 * 2 ^ 16 + B6 * 2 ^ 8 + B7 := by
  rw [Nat.zero_or]
  rw [mul_pow_lor_eq_add B0 (B1 * 2 ^ 48) 56 (by omega)]
  rw [show B0 * 2 ^ 56 + B1 * 2 ^ 48 = (B0 * 2 ^ 8 + B1) * 2 ^ 48 by ring]
  rw [mul_pow_lor_eq_add _ (B2 * 2 ^ 40) 48 (by omega)]
  rw [show (B0 * 2 ^ 8 + B1) * 2 ^ 48 + B2 * 2 ^ 40 =
    ((B0 * 2 ^ 8 + B1) * 2 ^ 8 + B2) * 2 ^ 40 by ring]
  rw [mul_pow_lor_eq_add _ (B3 * 2 ^ 32) 40 (by omega)]
  rw [show ((B0 * 2 ^ 8 + B1) * 2 ^ 8 + B2) * 2 ^ 40 + B3 * 2 ^ 32 =
    (((B0 * 2 ^ 8 + B1) * 2 ^ 8 + B2) * 2 ^ 8 + B3) * 2 ^ 32 by ring]
  rw [mul_pow_lor_eq_add _ (B4 * 2 ^ 24) 32 (by omega)]
  rw [show (((B0 * 2 ^ 8 + B1) * 2 ^ 8 + B2) * 2 ^ 8 + B3) * 2 ^ 32 + B4 * 2 ^ 24 =
    ((((B0 * 2 ^ 8 + B1) * 2 ^ 8 + B2) * 2 ^ 8 + B3) * 2 ^ 8 + B4) * 2 ^ 24 by ring]
  rw [mul_pow_lor_eq_add _ (B5 * 2 ^ 16) 24 (by omega)]
  rw [show ((((B0 * 2 ^ 8 + B1) * 2 ^ 8 + B2) * 2 ^ 8 + B3) * 2 ^ 8 + B4) * 2 ^ 24 +
      B5 * 2 ^ 16 =
    (((((B0 * 2 ^ 8 + B1) * 2 ^ 8 + B2) * 2 ^ 8 + B3) * 2 ^ 8 + B4) * 2 ^ 8 + B5) *
      2 ^ 16 by ring]
  rw [mul_pow_lor_eq_add _ (B6 * 2 ^ 8) 16 (by omega)]
  rw [show (((((B0 * 2 ^ 8 + B1) * 2 ^ 8 + B2) * 2 ^ 8 + B3) * 2 ^ 8 + B4) * 2 ^ 8 +
      B5) * 2 ^ 16 + B6 * 2 ^ 8 =
    ((((((B0 * 2 ^ 8 + B1) * 2 ^ 8 + B2) * 2 ^ 8 + B3) * 2 ^ 8 + B4) * 2 ^ 8 + B5) *
      2 ^ 8 + B6) * 2 ^ 8 by ring]
  rw [mul_pow_lor_eq_add _ (B7 * 2 ^ 0) 8 (by omega)]
  ring

/-- The byte repacking of checkStegoMask reproduces the little-endian limbs. -/
lemma cpuStegoLimb_eq_limb (x i : ℕ) (hi : i < 4) : cpuStegoLimb x i = limb x i := by
  have e0 : 8 * (31 - ((3 - i) * 8 + 0)) = 64 * i + 56 := by omega
  have e1 : 8 * (31 - ((3 - i) * 8 + 1)) = 64 * i + 48 := by omega
  have e2 : 8 * (31 - ((3 - i) * 8 + 2)) = 64 * i + 40 := by omega
  have e3 : 8 * (31 - ((3 - i) * 8 + 3)) = 64 * i + 32 := by omega
  have e4 : 8 * (31 - ((3 - i) * 8 + 4)) = 64 * i + 24 := by omega
  have e5 : 8 * (31 - ((3 - i) * 8 + 5)) = 64 * i + 16 := by omega
  have e6 : 8 * (31 - ((3 - i) * 8 + 6)) = 64 * i + 8 := by omega
  have e7 : 8 * (31 - ((3 - i) * 8 + 7)) = 64 * i + 0 := by omega
  have hdd : ∀ a : ℕ, x / 2 ^ (64 * i + a) = x / 2 ^ (64 * i) / 2 ^ a := by
    intro a
    rw [pow_add, Nat.div_div_eq_div_mul]
  unfold cpuStegoLimb
  rw [orPack8 _ _ _ _ _ _ _ _ (byteBE_lt ..) (byteBE_lt ..) (byteBE_lt ..)
    (byteBE_lt ..) (byteBE_lt ..) (byteBE_lt ..) (byteBE_lt ..) (byteBE_lt ..)]
  unfold byteBE limb
  rw [e0, e1, e2, e3, e4, e5, e6, e7]
  rw [hdd 56, hdd 48, hdd 40, hdd 32, hdd 24, hdd 16, hdd 8, hdd 0]
  set y := x / 2 ^ (64 * i) with hy
  norm_num
  omega

/-- A limb of a 256-bit value views a 64-bit window of its bits. -/
lemma testBit_limb (x i t : ℕ) :
    (limb x i).testBit t = (decide (t < 64) && x.testBit (64 * i + t)) := by
  unfold limb
  rw [← Nat.shiftRight_eq_div_pow, Nat.testBit_mod_two_pow, Nat.testBit_shiftRight]

/-- The four limbwise masked comparisons are together equivalent to the masked
comparison of the full 256-bit values. -/
lemma limbEq_iff_andEq (x v m : ℕ) (hx : x < 2 ^ 256) (hv : v < 2 ^ 256) :
    (∀ i < 4, limb x i &&& limb m i = limb v i &&& limb m i) ↔
      x &&& m = v &&& m := by
  constructor
  · intro h
    apply Nat.eq_of_testBit_eq
    intro t
    rcases Nat.lt_or_ge t 256 with ht | ht
    · have hi : t / 64 < 4 := by omega
      have htb := congrArg (fun z => Nat.testBit z (t % 64)) (h (t / 64) hi)
      have ht64 : 64 * (t / 64) + t % 64 = t := by omega
      simp only [Nat.testBit_land, testBit_limb, ht64, Nat.mod_lt t (by omega : 0 < 64),
        decide_True, Bool.true_and] at htb
      simp only [Nat.testBit_land]
      exact htb
    · have hxf : x.testBit t = false :=
        Nat.testBit_eq_false_of_lt
          (lt_of_lt_of_le hx (Nat.pow_le_pow_right (by norm_num) ht))
      have hvf : v.testBit t = false :=
        Nat.testBit_eq_false_of_lt
          (lt_of_lt_of_le hv (Nat.pow_le_pow_right (by norm_num) ht))
      simp [Nat.testBit_land, hxf, hvf]
  · intro h i hi
    apply Nat.eq_of_testBit_eq
    intro t
    rcases Nat.lt_or_ge t 64 with ht | ht
    · have htb := congrArg (fun z => Nat.testBit z (64 * i + t)) h
      simp only [Nat.testBit_land] at htb
      simp only [Nat.testBit_land, testBit_limb, ht, decide_True, Bool.true_and]
      exact htb
    · simp [Nat.testBit_land, testBit_limb, Nat.not_lt.mpr ht]

/-- A Bool-level reshaping of the four-limb conjunction. -/
lemma gpuStegoMatch_iff (px value mask : ℕ) :
    gpuStegoMatch px value mask = true ↔
      ∀ i < 4, limb px i &&& limb mask i = limb value i &&& limb mask i := by
  unfold gpuStegoMatch
  simp only [Bool.and_eq_true, decide_eq_true_eq]
  constructor
  · rintro ⟨⟨⟨h0, h1⟩, h2⟩, h3⟩ i hi
    interval_cases i <;> assumption
  · intro h
    exact ⟨⟨⟨h 0 (by norm_num), h 1 (by norm_num)⟩, h 2 (by norm_num)⟩,
      h 3 (by norm_num)⟩

/-- C2: for every candidate point with X coordinate x below 2^256, the CPU
steganography check (checkStegoMask) and the GPU kernel check
(CheckStegoPoint) compute the same predicate, and that predicate holds exactly
when (x & mask) equals (value & mask) as 256-bit values. -/
theorem c2_stego_mask_cpu_gpu (x value mask : ℕ)
    (hx : x < 2 ^ 256) (hv : value < 2 ^ 256) :
    cpuStegoMatch x value mask = gpuStegoMatch x value mask ∧
    (gpuStegoMatch x value mask = true ↔ x &&& mask = value &&& mask) := by
  refine ⟨?_, ?_⟩
  · unfold cpuStegoMatch gpuStegoMatch
    rw [cpuStegoLimb_eq_limb x 0 (by norm_num), cpuStegoLimb_eq_limb x 1 (by norm_num),
      cpuStegoLimb_eq_limb x 2 (by norm_num), cpuStegoLimb_eq_limb x 3 (by norm_num)]
  · rw [gpuStegoMatch_iff, limbEq_iff_andEq x value mask hx hv]

/-- Witness instantiating C2 at a concrete input whose low bit matches. -/
theorem c2_stego_mask_cpu_gpu_witness :
    (gpuStegoMatch 3 7 1 = true) ∧
    (cpuStegoMatch 3 7 1 = gpuStegoMatch 3 7 1 ∧
      (gpuStegoMatch 3 7 1 = true ↔ 3 &&& 1 = 7 &&& 1)) :=
  ⟨by decide, c2_stego_mask_cpu_gpu 3 7 1 (by norm_num) (by norm_num)⟩

/-! ### Claim C4: the GPU prefix lookup (CheckPoint)

CheckPoint (src/GPU/GPUCompute.h) reads the first 16 bits of the hash as the
index pr0 into the primary table, reads hit = prefix[pr0], and misses when it
is zero.  When a secondary table lookup32 is present, it binary-searches the
slice of length hit starting at offset lookup32[pr0] for the first 32 bits of
the hash, reporting a hit exactly on equality; when no secondary table is
present, any nonzero hit count reports a hit immediately. -/

/-- Binary search loop of CheckPoint (src/GPU/GPUCompute.h): looks for l32 in
tbl between indices st and ed.  The loop terminates in at most ed+2-st
iterations; the fuel argument makes that bound explicit. -/
def bsearch32 (tbl : ℕ → ℕ) (l32 : ℕ) : ℕ → ℕ → ℕ → Bool
  | 0, _, _ => false
  | fuel + 1, st, ed =>
    if st ≤ ed then
      let mi := (st + ed) / 2
      if l32 < tbl mi then bsearch32 tbl l32 fuel st (mi - 1)
      else if l32 = tbl mi then true
      else bsearch32 tbl l32 fuel (mi + 1) ed
    else false

/-- Correctness of the CheckPoint binary search: on a sorted slice it decides
membership.  The lower bound 1 ≤ st reflects that the sorted data lives after
the 65536-entry offset header of the lookup32 buffer, so the unsigned
underflow of ed = mi - 1 in the C code cannot occur. -/
lemma bsearch32_correct (tbl : ℕ → ℕ) (l32 : ℕ) (fuel st ed : ℕ)
    (hfuel : ed + 2 - st ≤ fuel) (hst : 1 ≤ st)
    (hsorted : ∀ a b, st ≤ a → a ≤ b → b ≤ ed → tbl a ≤ tbl b) :
    (bsearch32 tbl l32 fuel st ed = true ↔
      ∃ j, st ≤ j ∧ j ≤ ed ∧ tbl j = l32) := by
  induction fuel generalizing st ed with
  | zero =>
    simp only [bsearch32]
    constructor
    · intro h
      exact absurd h (by simp)
    · rintro ⟨j, hj1, hj2, _⟩
      omega
  | succ fuel ih =>
    simp only [bsearch32]
    by_cases hse : st ≤ ed
    · rw [if_pos hse]
      have hmi1 : st ≤ (st + ed) / 2 := by omega
      have hmi2 : (st + ed) / 2 ≤ ed := by omega
      by_cases hlt : l32 < tbl ((st + ed) / 2)
      · rw [if_pos hlt]
        rw [ih st ((st + ed) / 2 - 1) (by omega) hst
          (fun a b ha hab hb => hsorted a b ha hab (by omega))]
        constructor
        · rintro ⟨j, hj1, hj2, hj3⟩
          exact ⟨j, hj1, by omega, hj3⟩
        · rintro ⟨j, hj1, hj2, hj3⟩
          refine ⟨j, hj1, ?_, hj3⟩
          by_contra hcon
          have hge : (st + ed) / 2 ≤ j := by omega
          have := hsorted ((st + ed) / 2) j hmi1 hge hj2
          omega
      · rw [if_neg hlt]
        by_cases heq : l32 = tbl ((st + ed) / 2)
        · rw [if_pos heq]
          simp only [true_iff]
          exact ⟨(st + ed) / 2, hmi1, hmi2, heq.symm⟩
        · rw [if_neg heq]
          have hgt : tbl ((st + ed) / 2) < l32 := by omega
          rw [ih ((st + ed) / 2 + 1) ed (by omega) (by omega)
            (fun a b ha hab hb => hsorted a b (by omega) hab hb)]
          constructor
          · rintro ⟨j, hj1, hj2, hj3⟩
            exact ⟨j, by omega, hj2, hj3⟩
          · rintro ⟨j, hj1, hj2, hj3⟩
            refine ⟨j, ?_, hj2, hj3⟩
            by_contra hcon
            have hle : j ≤ (st + ed) / 2 := by omega
            have := hsorted j ((st + ed) / 2) hj1 hle hmi2
            omega
    · rw [if_neg hse]
      apply iff_of_false (by simp)
      rintro ⟨j, hj1, hj2, _⟩
      omega

/-- First 16 bits of a hash given as its byte list: the little-endian read
prefix_t pr0 = *(prefix_t *)_h. -/
def hash16 (hb : List ℕ) : ℕ := hb.getD 0 0 + 2 ^ 8 * hb.getD 1 0

/-- First 32 bits of a hash given as its byte list: the little-endian read
l32 = _h[0]. -/
def hash32 (hb : List ℕ) : ℕ :=
  hb.getD 0 0 + 2 ^ 8 * hb.getD 1 0 + 2 ^ 16 * hb.getD 2 0 + 2 ^ 24 * hb.getD 3 0

/-- The CheckPoint lookup predicate (src/GPU/GPUCompute.h).  cnt is the
16-bit primary table (prefix array), look the optional secondary lookup32
buffer, which stores the slice offset at the 16-bit index and the sorted
32-bit extensions at the offsets.  The binary-search fuel cnt+2 dominates the
loop bound ed+2-st = cnt+1. -/
def checkPoint (hb : List ℕ) (cnt : ℕ → ℕ) (look : Option (ℕ → ℕ)) : Bool :=
  if cnt (hash16 hb) ≠ 0 then
    match look with
    | some tbl =>
        bsearch32 tbl (hash32 hb) (cnt (hash16 hb) + 2) (tbl (hash16 hb))
          (tbl (hash16 hb) + cnt (hash16 hb) - 1)
    | none => true
  else false

/-- C4: CheckPoint reads the first 16 bits q of the hash; a zero count is a
miss; with a secondary table it hits exactly when the sorted slice of length
count at offset lookup32[q] contains the first 32 bits of the hash; without a
secondary table any nonzero count hits immediately. -/
theorem c4_prefix_lookup (hb : List ℕ) (cnt : ℕ → ℕ) (tbl : ℕ → ℕ)
    (hoff : 1 ≤ tbl (hash16 hb))
    (hsorted : ∀ a b, tbl (hash16 hb) ≤ a → a ≤ b →
      b ≤ tbl (hash16 hb) + cnt (hash16 hb) - 1 → tbl a ≤ tbl b) :
    (cnt (hash16 hb) = 0 →
      checkPoint hb cnt (some tbl) = false ∧ checkPoint hb cnt none = false) ∧
    (checkPoint hb cnt none = true ↔ cnt (hash16 hb) ≠ 0) ∧
    (checkPoint hb cnt (some tbl) = true ↔
      cnt (hash16 hb) ≠ 0 ∧ ∃ j, tbl (hash16 hb) ≤ j ∧
        j ≤ tbl (hash16 hb) + cnt (hash16 hb) - 1 ∧ tbl j = hash32 hb) := by
  refine ⟨?_, ?_, ?_⟩
  · intro h0
    unfold checkPoint
    rw [h0]
    simp
  · unfold checkPoint
    by_cases h0 : cnt (hash16 hb) = 0
    · rw [h0]
      simp
    · rw [if_pos h0]
      simp [h0]
  · unfold checkPoint
    by_cases h0 : cnt (hash16 hb) = 0
    · rw [h0]
      simp
    · rw [if_pos h0]
      rw [bsearch32_correct tbl (hash32 hb) (cnt (hash16 hb) + 2)
        (tbl (hash16 hb)) (tbl (hash16 hb) + cnt (hash16 hb) - 1)
        (by omega) hoff hsorted]
      simp [h0]

/-- Witness instantiating C4: a one-entry table containing the extension. -/
theorem c4_prefix_lookup_witness :
    ((fun _ : ℕ => 1) (hash16 [7, 0, 0, 0]) = 0 →
      checkPoint [7, 0, 0, 0] (fun _ => 1) (some fun _ => 7) = false ∧
      checkPoint [7, 0, 0, 0] (fun _ => 1) none = false) ∧
    (checkPoint [7, 0, 0, 0] (fun _ => 1) none = true ↔
      (fun _ : ℕ => 1) (hash16 [7, 0, 0, 0]) ≠ 0) ∧
    (checkPoint [7, 0, 0, 0] (fun _ => 1) (some fun _ => 7) = true ↔
      (fun _ : ℕ => 1) (hash16 [7, 0, 0, 0]) ≠ 0 ∧ ∃ j,
        (fun _ : ℕ => 7) (hash16 [7, 0, 0, 0]) ≤ j ∧
        j ≤ (fun _ : ℕ => 7) (hash16 [7, 0, 0, 0]) +
          (fun _ : ℕ => 1) (hash16 [7, 0, 0, 0]) - 1 ∧
        (fun _ : ℕ => 7) j = hash32 [7, 0, 0, 0]) :=
  c4_prefix_lookup [7, 0, 0, 0] (fun _ => 1) (fun _ => 7) (by norm_num)
    (fun a b _ _ _ => le_refl 7)

/-! ### Modular arithmetic layer

The IntMod field/scalar arithmetic of the source is an external collaborator;
following the spec (FieldInt/OrderInt, values in canonical range), the
operations are modelled as natural-number arithmetic with explicit reductions.
Inversion is modelled as a modular power (the spec only requires that inv
yields the modular inverse of a nonzero element). -/

/-- Modular exponentiation by the binary digits of the exponent; the fuel
argument bounds the digit count so that the recursion is structural. -/
def powMod : ℕ → ℕ → ℕ → ℕ → ℕ
  | 0, _, _, m => 1 % m
  | fuel + 1, a, e, m =>
    if e = 0 then 1 % m
    else
      let r := powMod fuel (a * a % m) (e / 2) m
      if e % 2 = 1 then r * a % m else r

lemma powMod_correct (fuel : ℕ) : ∀ a e m : ℕ, e < 2 ^ fuel →
    powMod fuel a e m = a ^ e % m := by
  induction fuel with
  | zero =>
    intro a e m he
    have h0 : e = 0 := by simpa using he
    subst h0
    simp [powMod]
  | succ fuel ih =>
    intro a e m he
    rw [powMod]
    by_cases h0 : e = 0
    · subst h0
      simp
    · rw [if_neg h0]
      have he2 : e / 2 < 2 ^ fuel := by
        rw [pow_succ] at he
        omega

      rw [ih (a * a % m) (e / 2) m he2]
      have hsq : (a * a % m) ^ (e / 2) % m = a ^ (2 * (e / 2)) % m := by
        rw [← Nat.pow_mod, ← pow_two, ← pow_mul]
      by_cases hodd : e % 2 = 1
      · rw [if_pos hodd, hsq]
        rw [Nat.mod_mul_mod]
        rw [← pow_succ]
        have heq : 2 * (e / 2) + 1 = e := by omega
        rw [heq]
      · rw [if_neg hodd, hsq]
        have heq : 2 * (e / 2) = e := by omega
        rw [heq]

/-- Dividing keeps a number under the exponent bound used by powMod. -/
lemma div_lt_big {x : ℕ} (q : ℕ) (hx : x < 2 ^ 600) : x / q < 2 ^ 600 :=
  lt_of_le_of_lt (Nat.div_le_self x q) hx

/-- Transfer of a powMod computation into ZMod: the power equals one. -/
lemma powModEqOne (N a e : ℕ) (he : e < 2 ^ 600)
    (h : powMod 600 a e N % N = 1 % N) : ((a : ℕ) : ZMod N) ^ e = 1 := by
  have h2 : ((a : ℕ) : ZMod N) ^ e = ((powMod 600 a e N : ℕ) : ZMod N) := by
    rw [powMod_correct 600 a e N he, ZMod.natCast_mod, Nat.cast_pow]
  rw [h2, ← ZMod.natCast_mod, h, ZMod.natCast_mod, Nat.cast_one]

/-- Transfer of a powMod computation into ZMod: the power is not one. -/
lemma powModNeOne (N a e : ℕ) (he : e < 2 ^ 600)
    (h : powMod 600 a e N % N ≠ 1 % N) : ((a : ℕ) : ZMod N) ^ e ≠ 1 := by
  have h2 : ((a : ℕ) : ZMod N) ^ e = ((powMod 600 a e N : ℕ) : ZMod N) := by
    rw [powMod_correct 600 a e N he, ZMod.natCast_mod, Nat.cast_pow]
  rw [h2]
  intro hc
  exact h ((ZMod.natCast_eq_natCast_iff _ _ _).mp (hc.trans Nat.cast_one.symm))

/-- A prime dividing a prime equals it. -/
lemma primeEqOfDvd {q r : ℕ} (hq : q.Prime) (hr : r.Prime) (h : q ∣ r) : q = r :=
  (Nat.prime_dvd_prime_iff_eq hq hr).mp h

/-- A prime dividing a prime power equals the base. -/
lemma primeEqOfDvdPow {q r k : ℕ} (hq : q.Prime) (hr : r.Prime) (h : q ∣ r ^ k) :
    q = r :=
  primeEqOfDvd hq hr (hq.dvd_of_dvd_pow h)

/-- Pratt chain certificate: 1206781 is prime (Lucas witness 10). -/
lemma prime_chain6 : Nat.Prime 1206781 := by
  have hsub : (1206781 : ℕ) - 1 = 2 ^ 2 * 3 * 5 * 20113 := by norm_num
  apply lucas_primality _ ((10 : ℕ) : ZMod 1206781)
  · exact powModEqOne _ _ _ (by norm_num) (by decide)
  · intro q hq hdvd
    rw [hsub] at hdvd
    have hcases : q = 2 ∨ q = 3 ∨ q = 5 ∨ q = 20113 := by
      rcases (Nat.Prime.dvd_mul hq).mp hdvd with h | h
      · rcases (Nat.Prime.dvd_mul hq).mp h with h | h
        · rcases (Nat.Prime.dvd_mul hq).mp h with h | h
          · exact Or.inl (primeEqOfDvdPow hq (by norm_num) h)
          · exact Or.inr (Or.inl (primeEqOfDvd hq (by norm_num) h))
        · exact Or.inr (Or.inr (Or.inl (primeEqOfDvd hq (by norm_num) h)))
      · exact Or.inr (Or.inr (Or.inr (primeEqOfDvd hq (by norm_num) h)))
    rcases hcases with rfl | rfl | rfl | rfl <;>
      exact powModNeOne _ _ _ (div_lt_big _ (by norm_num)) (by decide)

/-- Pratt chain certificate: 7240687 is prime (Lucas witness 3). -/
lemma prime_chain7 : Nat.Prime 7240687 := by
  have hsub : (7240687 : ℕ) - 1 = 2 * 3 * 1206781 := by norm_num
  apply lucas_primality _ ((3 : ℕ) : ZMod 7240687)
  · exact powModEqOne _ _ _ (by norm_num) (by decide)
  · intro q hq hdvd
    rw [hsub] at hdvd
    have hcases : q = 2 ∨ q = 3 ∨ q = 1206781 := by
      rcases (Nat.Prime.dvd_mul hq).mp hdvd with h | h
      · rcases (Nat.Prime.dvd_mul hq).mp h with h | h
        · exact Or.inl (primeEqOfDvd hq (by norm_num) h)
        · exact Or.inr (Or.inl (primeEqOfDvd hq (by norm_num) h))
      · exact Or.inr (Or.inr (primeEqOfDvd hq prime_chain6 h))
    rcases hcases with rfl | rfl | rfl <;>
      exact powModNeOne _ _ _ (div_lt_big _ (by norm_num)) (by decide)

/-- Pratt chain certificate: 107590001 is prime (Lucas witness 3). -/
lemma prime_chain8 : Nat.Prime 107590001 := by
  have hsub : (107590001 : ℕ) - 1 = 2 ^ 4 * 5 ^ 4 * 7 * 29 * 53 := by norm_num
  apply lucas_primality _ ((3 : ℕ) : ZMod 107590001)
  · exact powModEqOne _ _ _ (by norm_num) (by decide)
  · intro q hq hdvd
    rw [hsub] at hdvd
    have hcases : q = 2 ∨ q = 5 ∨ q = 7 ∨ q = 29 ∨ q = 53 := by
      rcases (Nat.Prime.dvd_mul hq).mp hdvd with h | h
      · rcases (Nat.Prime.dvd_mul hq).mp h with h | h
        · rcases (Nat.Prime.dvd_mul hq).mp h with h | h
          · rcases (Nat.Prime.dvd_mul hq).mp h with h | h
            · exact Or.inl (primeEqOfDvdPow hq (by norm_num) h)
            · exact Or.inr (Or.inl (primeEqOfDvdPow hq (by norm_num) h))
          · exact Or.inr (Or.inr (Or.inl (primeEqOfDvd hq (by norm_num) h)))
        · exact Or.inr (Or.inr (Or.inr (Or.inl (primeEqOfDvd hq (by norm_num) h))))
      · exact Or.inr (Or.inr (Or.inr (Or.inr (primeEqOfDvd hq (by norm_num) h))))
    rcases hcases with rfl | rfl | rfl | rfl | rfl <;>
      exact powModNeOne _ _ _ (div_lt_big _ (by norm_num)) (by decide)

/-- Pratt chain certificate: 13331831 is prime (Lucas witness 13). -/
lemma prime_chain9 : Nat.Prime 13331831 := by
  have hsub : (13331831 : ℕ) - 1 = 2 * 5 * 971 * 1373 := by norm_num
  apply lucas_primality _ ((13 : ℕ) : ZMod 13331831)
  · exact powModEqOne _ _ _ (by norm_num) (by decide)
  · intro q hq hdvd
    rw [hsub] at hdvd
    have hcases : q = 2 ∨ q = 5 ∨ q = 971 ∨ q = 1373 := by
      rcases (Nat.Prime.dvd_mul hq).mp hdvd with h | h
      · rcases (Nat.Prime.dvd_mul hq).mp h with h | h
        · rcases (Nat.Prime.dvd_mul hq).mp h with h | h
          · exact Or.inl (primeEqOfDvd hq (by norm_num) h)
          · exact Or.inr (Or.inl (primeEqOfDvd hq (by norm_num) h))
        · exact Or.inr (Or.inr (Or.inl (primeEqOfDvd hq (by norm_num) h)))
      · exact Or.inr (Or.inr (Or.inr (primeEqOfDvd hq (by norm_num) h)))
    rcases hcases with rfl | rfl | rfl | rfl <;>
      exact powModNeOne _ _ _ (div_lt_big _ (by norm_num)) (by decide)

/-- Pratt chain, level 5: 173378833005251801 is prime (witness 6). -/
lemma prime_chain5 : Nat.Prime 173378833005251801 := by
  have h13331831 : Nat.Prime 13331831 := prime_chain9
  have h2621 : Nat.Prime 2621 := by norm_num
  have h24809 : Nat.Prime 24809 := by norm_num
  have hsub : (173378833005251801 : ℕ) - 1 =
      2 ^ 3 * 5 ^ 2 * 2621 * 24809 * 13331831 := by norm_num
  apply lucas_primality _ ((6 : ℕ) : ZMod 173378833005251801)
  · exact powModEqOne _ _ _ (by norm_num) (by decide)
  · intro q hq hdvd
    rw [hsub] at hdvd
    have hcases : q = 2 ∨ q = 5 ∨ q = 2621 ∨ q = 24809 ∨ q = 13331831 := by
      rcases (Nat.Prime.dvd_mul hq).mp hdvd with h | h
      · rcases (Nat.Prime.dvd_mul hq).mp h with h | h
        · rcases (Nat.Prime.dvd_mul hq).mp h with h | h
          · rcases (Nat.Prime.dvd_mul hq).mp h with h | h
            · exact Or.inl (primeEqOfDvdPow hq (by norm_num) h)
            · exact Or.inr (Or.inl (primeEqOfDvdPow hq (by norm_num) h))
          · exact Or.inr (Or.inr (Or.inl (primeEqOfDvd hq h2621 h)))
        · exact Or.inr (Or.inr (Or.inr (Or.inl (primeEqOfDvd hq h24809 h))))
      · exact Or.inr (Or.inr (Or.inr (Or.inr (primeEqOfDvd hq h13331831 h))))
    rcases hcases with rfl | rfl | rfl | rfl | rfl <;>
      exact powModNeOne _ _ _ (div_lt_big _ (by norm_num)) (by decide)
/-- Pratt chain certificate: 22149492674086928081353 is prime (Lucas witness 5). -/
lemma prime_chain4 : Nat.Prime (22149492674086928081353 : ℕ) := by
  have hsub : (22149492674086928081353 : ℕ) - 1 = 2 ^ 3 * 3 * 5323 * 173378833005251801 := by norm_num
  apply lucas_primality _ ((5 : ℕ) : ZMod (22149492674086928081353 : ℕ))
  · exact powModEqOne _ _ _ (by norm_num) (by decide)
  · intro q hq hdvd
    rw [hsub] at hdvd
    have hcases : q = 2 ∨ q = 3 ∨ q = 5323 ∨ q = 173378833005251801 := by
      rcases (Nat.Prime.dvd_mul hq).mp hdvd with h | h
      · rcases (Nat.Prime.dvd_mul hq).mp h with h | h
        · rcases (Nat.Prime.dvd_mul hq).mp h with h | h
          · exact Or.inl (primeEqOfDvdPow hq (by norm_num) h)
          · exact Or.inr (Or.inl (primeEqOfDvd hq (by norm_num) h))
        · exact Or.inr (Or.inr (Or.inl (primeEqOfDvd hq (by norm_num) h)))
      · exact Or.inr (Or.inr (Or.inr (primeEqOfDvd hq prime_chain5 h)))
    rcases hcases with rfl | rfl | rfl | rfl <;>
      exact powModNeOne _ _ _ (div_lt_big _ (by norm_num)) (by decide)

/-- Pratt chain certificate: 132896956044521568488119 is prime (Lucas witness 6). -/
lemma prime_chain2 : Nat.Prime (132896956044521568488119 : ℕ) := by
  have hsub : (132896956044521568488119 : ℕ) - 1 = 2 * 3 * 22149492674086928081353 := by norm_num
  apply lucas_primality _ ((6 : ℕ) : ZMod (132896956044521568488119 : ℕ))
  · exact powModEqOne _ _ _ (by norm_num) (by decide)
  · intro q hq hdvd
    rw [hsub] at hdvd
    have hcases : q = 2 ∨ q = 3 ∨ q = 22149492674086928081353 := by
      rcases (Nat.Prime.dvd_mul hq).mp hdvd with h | h
      · rcases (Nat.Prime.dvd_mul hq).mp h with h | h
        · exact Or.inl (primeEqOfDvd hq (by norm_num) h)
        · exact Or.inr (Or.inl (primeEqOfDvd hq (by norm_num) h))
      · exact Or.inr (Or.inr (primeEqOfDvd hq prime_chain4 h))
    rcases hcases with rfl | rfl | rfl <;>
      exact powModNeOne _ _ _ (div_lt_big _ (by norm_num)) (by decide)

/-- Pratt chain certificate: 255515944373312847190720520512484175977 is prime (Lucas witness 3). -/
lemma prime_chain3 : Nat.Prime (255515944373312847190720520512484175977 : ℕ) := by
  have hsub : (255515944373312847190720520512484175977 : ℕ) - 1 = 2 ^ 3 * 7 ^ 2 * 11 * 1627 * 2657 * 4423 * 41201 * 96557 * 7240687 * 107590001 := by norm_num
  apply lucas_primality _ ((3 : ℕ) : ZMod (255515944373312847190720520512484175977 : ℕ))
  · exact powModEqOne _ _ _ (by norm_num) (by decide)
  · intro q hq hdvd
    rw [hsub] at hdvd
    have hcases : q = 2 ∨ q = 7 ∨ q = 11 ∨ q = 1627 ∨ q = 2657 ∨ q = 4423 ∨ q = 41201 ∨ q = 96557 ∨ q = 7240687 ∨ q = 107590001 := by
      rcases (Nat.Prime.dvd_mul hq).mp hdvd with h | h
      · rcases (Nat.Prime.dvd_mul hq).mp h with h | h
        · rcases (Nat.Prime.dvd_mul hq).mp h with h | h
          · rcases (Nat.Prime.dvd_mul hq).mp h with h | h
            · rcases (Nat.Prime.dvd_mul hq).mp h with h | h
              · rcases (Nat.Prime.dvd_mul hq).mp h with h | h
                · rcases (Nat.Prime.dvd_mul hq).mp h with h | h
                  · rcases (Nat.Prime.dvd_mul hq).mp h with h | h
                    · rcases (Nat.Prime.dvd_mul hq).mp h with h | h
                      · exact Or.inl (primeEqOfDvdPow hq (by norm_num) h)
                      · exact Or.inr (Or.inl (primeEqOfDvdPow hq (by norm_num) h))
                    · exact Or.inr (Or.inr (Or.inl (primeEqOfDvd hq (by norm_num) h)))
                  · exact Or.inr (Or.inr (Or.inr (Or.inl (primeEqOfDvd hq (by norm_num) h))))
                · exact Or.inr (Or.inr (Or.inr (Or.inr (Or.inl (primeEqOfDvd hq (by norm_num) h)))))
              · exact Or.inr (Or.inr (Or.inr (Or.inr (Or.inr (Or.inl (primeEqOfDvd hq (by norm_num) h))))))
            · exact Or.inr (Or.inr (Or.inr (Or.inr (Or.inr (Or.inr (Or.inl (primeEqOfDvd hq (by norm_num) h)))))))
          · exact Or.inr (Or.inr (Or.inr (Or.inr (Or.inr (Or.inr (Or.inr (Or.inl (primeEqOfDvd hq (by norm_num) h))))))))
        · exact Or.inr (Or.inr (Or.inr (Or.inr (Or.inr (Or.inr (Or.inr (Or.inr (Or.inl (primeEqOfDvd hq prime_chain7 h)))))))))
      · exact Or.inr (Or.inr (Or.inr (Or.inr (Or.inr (Or.inr (Or.inr (Or.inr (Or.inr (primeEqOfDvd hq prime_chain8 h)))))))))
    rcases hcases with rfl | rfl | rfl | rfl | rfl | rfl | rfl | rfl | rfl | rfl <;>
      exact powModNeOne _ _ _ (div_lt_big _ (by norm_num)) (by decide)

/-- Pratt chain certificate: 205115282021455665897114700593932402728804164701536103180137503955397371 is prime (Lucas witness 10). -/
lemma prime_chain1 : Nat.Prime (205115282021455665897114700593932402728804164701536103180137503955397371 : ℕ) := by
  have hsub : (205115282021455665897114700593932402728804164701536103180137503955397371 : ℕ) - 1 = 2 * 3 * 5 * 29 ^ 2 * 31 * 7723 * 132896956044521568488119 * 255515944373312847190720520512484175977 := by norm_num
  apply lucas_primality _ ((10 : ℕ) : ZMod (205115282021455665897114700593932402728804164701536103180137503955397371 : ℕ))
  · exact powModEqOne _ _ _ (by norm_num) (by decide)
  · intro q hq hdvd
    rw [hsub] at hdvd
    have hcases : q = 2 ∨ q = 3 ∨ q = 5 ∨ q = 29 ∨ q = 31 ∨ q = 7723 ∨ q = 132896956044521568488119 ∨ q = 255515944373312847190720520512484175977 := by
      rcases (Nat.Prime.dvd_mul hq).mp hdvd with h | h
      · rcases (Nat.Prime.dvd_mul hq).mp h with h | h
        · rcases (Nat.Prime.dvd_mul hq).mp h with h | h
          · rcases (Nat.Prime.dvd_mul hq).mp h with h | h
            · rcases (Nat.Prime.dvd_mul hq).mp h with h | h
              · rcases (Nat.Prime.dvd_mul hq).mp h with h | h
                · rcases (Nat.Prime.dvd_mul hq).mp h with h | h
                  · exact Or.inl (primeEqOfDvd hq (by norm_num) h)
                  · exact Or.inr (Or.inl (primeEqOfDvd hq (by norm_num) h))
                · exact Or.inr (Or.inr (Or.inl (primeEqOfDvd hq (by norm_num) h)))
              · exact Or.inr (Or.inr (Or.inr (Or.inl (primeEqOfDvdPow hq (by norm_num) h))))
            · exact Or.inr (Or.inr (Or.inr (Or.inr (Or.inl (primeEqOfDvd hq (by norm_num) h)))))
          · exact Or.inr (Or.inr (Or.inr (Or.inr (Or.inr (Or.inl (primeEqOfDvd hq (by norm_num) h))))))
        · exact Or.inr (Or.inr (Or.inr (Or.inr (Or.inr (Or.inr (Or.inl (primeEqOfDvd hq prime_chain2 h)))))))
      · exact Or.inr (Or.inr (Or.inr (Or.inr (Or.inr (Or.inr (Or.inr (primeEqOfDvd hq prime_chain3 h)))))))
    rcases hcases with rfl | rfl | rfl | rfl | rfl | rfl | rfl | rfl <;>
      exact powModNeOne _ _ _ (div_lt_big _ (by norm_num)) (by decide)

/-- Pratt chain certificate: 115792089237316195423570985008687907853269984665640564039457584007908834671663 is prime (Lucas witness 3). -/
lemma prime_secpP_val : Nat.Prime (115792089237316195423570985008687907853269984665640564039457584007908834671663 : ℕ) := by
  have hsub : (115792089237316195423570985008687907853269984665640564039457584007908834671663 : ℕ) - 1 = 2 * 3 * 7 * 13441 * 205115282021455665897114700593932402728804164701536103180137503955397371 := by norm_num
  apply lucas_primality _ ((3 : ℕ) : ZMod (115792089237316195423570985008687907853269984665640564039457584007908834671663 : ℕ))
  · exact powModEqOne _ _ _ (by norm_num) (by decide)
  · intro q hq hdvd
    rw [hsub] at hdvd
    have hcases : q = 2 ∨ q = 3 ∨ q = 7 ∨ q = 13441 ∨ q = 205115282021455665897114700593932402728804164701536103180137503955397371 := by
      rcases (Nat.Prime.dvd_mul hq).mp hdvd with h | h
      · rcases (Nat.Prime.dvd_mul hq).mp h with h | h
        · rcases (Nat.Prime.dvd_mul hq).mp h with h | h
          · rcases (Nat.Prime.dvd_mul hq).mp h with h | h
            · exact Or.inl (primeEqOfDvd hq (by norm_num) h)
            · exact Or.inr (Or.inl (primeEqOfDvd hq (by norm_num) h))
          · exact Or.inr (Or.inr (Or.inl (primeEqOfDvd hq (by norm_num) h)))
        · exact Or.inr (Or.inr (Or.inr (Or.inl (primeEqOfDvd hq (by norm_num) h))))
      · exact Or.inr (Or.inr (Or.inr (Or.inr (primeEqOfDvd hq prime_chain1 h))))
    rcases hcases with rfl | rfl | rfl | rfl | rfl <;>
      exact powModNeOne _ _ _ (div_lt_big _ (by norm_num)) (by decide)

/-- The secp256k1 field prime is prime. -/
lemma prime_secpP : Nat.Prime secpP := by
  have h : secpP =
      (115792089237316195423570985008687907853269984665640564039457584007908834671663 : ℕ) := by
    norm_num [secpP]
  rw [h]
  exact prime_secpP_val

instance factSecpP : Fact (Nat.Prime secpP) := ⟨prime_secpP⟩

/-- Field addition mod p. -/
def fadd (a b : ℕ) : ℕ := (a + b) % secpP

/-- Field subtraction mod p (ModSub: add the complement of the reduced
subtrahend). -/
def fsub (a b : ℕ) : ℕ := (a + (secpP - b % secpP)) % secpP

/-- Field multiplication mod p (ModMulK1). -/
def fmul (a b : ℕ) : ℕ := a * b % secpP

/-- Field negation mod p (ModNeg). -/
def fneg (a : ℕ) : ℕ := (secpP - a % secpP) % secpP

/-- Field inverse mod p, modelled as the Fermat power a^(p-2); the source's
_ModInv/IntGroup batch inverse are external collaborators whose contract (the
spec's inv) is the modular inverse. -/
def finv (a : ℕ) : ℕ := powMod 257 a (secpP - 2) secpP

/-! ### Curve points

Affine secp256k1 points with natural-number coordinates.  The complete
addition law (modelled from the spec: add_affine and double_affine with the
standard affine formulas, plus the infinity and inverse cases) mirrors the
case structure of the mathematical group law. -/

/-- An affine point or the point at infinity. -/
inductive PointN where
  | inf : PointN
  | mk (x y : ℕ) : PointN
deriving DecidableEq

/-- The curve equation y^2 = x^3 + 7 mod p at the natural-number level. -/
def onCurveN : PointN → Prop
  | .inf => True
  | .mk x y => y * y % secpP = (x * x % secpP * x + 7) % secpP

instance onCurveN.decPred : DecidablePred onCurveN := fun P =>
  match P with
  | .inf => .isTrue trivial
  | .mk x y =>
      inferInstanceAs (Decidable (y * y % secpP = (x * x % secpP * x + 7) % secpP))

/-- Tangent slope 3*x^2 / (2*y) of the doubling case. -/
def tangentS (x1 y1 : ℕ) : ℕ := fmul (fmul 3 (fmul x1 x1)) (finv (fadd y1 y1))

/-- Chord slope (y1-y2)/(x1-x2) of the generic case. -/
def chordS (x1 y1 x2 y2 : ℕ) : ℕ := fmul (fsub y1 y2) (finv (fsub x1 x2))

/-- Result x coordinate s^2 - x1 - x2 of the affine formulas. -/
def addXr (s x1 x2 : ℕ) : ℕ := fsub (fsub (fmul s s) x1) x2

/-- Result y coordinate s*(x1 - xr) - y1 of the affine formulas. -/
def addYr (s x1 xr y1 : ℕ) : ℕ := fsub (fmul s (fsub x1 xr)) y1

/-- Complete affine addition (modelled from the spec's add_affine and
double_affine): chord rule when the x coordinates differ, tangent rule when
the points coincide, infinity when they are mutual inverses. -/
def ecAdd : PointN → PointN → PointN
  | .inf, Q => Q
  | P, .inf => P
  | .mk x1 y1, .mk x2 y2 =>
    if fsub x1 x2 = 0 then
      if fadd y1 y2 = 0 then .inf
      else
        let s := tangentS x1 y1
        .mk (addXr s x1 x2) (addYr s x1 (addXr s x1 x2) y1)
    else
      let s := chordS x1 y1 x2 y2
      .mk (addXr s x1 x2) (addYr s x1 (addXr s x1 x2) y1)

/-- Binary double-and-add scalar multiplication (modelled from the spec's
scalar_mult); fuel bounds the number of scalar bits. -/
def mulP : ℕ → PointN → ℕ → PointN
  | 0, _, _ => .inf
  | fuel + 1, P, k =>
    if k = 0 then .inf
    else
      let r := mulP fuel (ecAdd P P) (k / 2)
      if k % 2 = 1 then ecAdd r P else r

/-- The generator as a PointN. -/
def gPoint : PointN := .mk genX genY

/-- ComputePublicKey: k*G (modelled from the spec's scalar_mult contract). -/
def mulG (k : ℕ) : PointN := mulP 257 gPoint k

/-! ### Claim C5: starting keys of CPU and GPU workers -/

/-- Modelled from the spec: the CPU group size constant CPU_GRP_SIZE lives in
the external Vanity.h header; the spec fixes HALF = CPU_GRP_SIZE/2 near 512,
and the upstream configuration is 1024. -/
def cpuGrpSize : ℕ := 1024

/-- VanitySearch::getCPUStartingKey (src/Vanity.cpp), deterministic branch
(rekey = 0): key = startKey + (thId << 64), and the start point is the public
key of key + CPU_GRP_SIZE/2, plus startPubKey when one is specified. -/
def getCPUStartingKey (startKey thId : ℕ) (startPub : Option PointN) : ℕ × PointN :=
  let off := thId <<< 64
  let key := startKey + off
  let km := key + cpuGrpSize / 2
  let sp := mulG km
  (key, match startPub with
    | some q => ecAdd sp q
    | none => sp)

/-- VanitySearch::getGPUStartingKeys (src/Vanity.cpp), deterministic branch,
for slot i of GPU thread thId: key = startKey + (i << 80) + (thId << 112),
start point at the middle of the group of size groupSize. -/
def getGPUStartingKey (startKey thId i groupSize : ℕ)
    (startPub : Option PointN) : ℕ × PointN :=
  let offT := i <<< 80
  let offG := thId <<< 112
  let key := startKey + offT + offG
  let k := key + groupSize / 2
  let sp := mulG k
  (key, match startPub with
    | some q => ecAdd sp q
    | none => sp)

/-- C5: the CPU worker t starts from k0 = seedKey + t*2^64 with start point
(k0 + HALF)*G (plus the offset key when given), where HALF is half the group
size; a GPU slot i on device t uses shifts of 80 and 112 bits.  The point
(k0+HALF)*G is expressed through mulG, the model of ComputePublicKey. -/
theorem c5_starting_keys (s t i g : ℕ) (sp : Option PointN) :
    (getCPUStartingKey s t sp).1 = s + t * 2 ^ 64 ∧
    (getCPUStartingKey s t sp).2 =
      (match sp with
        | some q => ecAdd (mulG (s + t * 2 ^ 64 + cpuGrpSize / 2)) q
        | none => mulG (s + t * 2 ^ 64 + cpuGrpSize / 2)) ∧
    (getGPUStartingKey s t i g sp).1 = s + i * 2 ^ 80 + t * 2 ^ 112 ∧
    (getGPUStartingKey s t i g sp).2 =
      (match sp with
        | some q => ecAdd (mulG (s + i * 2 ^ 80 + t * 2 ^ 112 + g / 2)) q
        | none => mulG (s + i * 2 ^ 80 + t * 2 ^ 112 + g / 2)) := by
  unfold getCPUStartingKey getGPUStartingKey
  rw [Nat.shiftLeft_eq, Nat.shiftLeft_eq, Nat.shiftLeft_eq]
  exact ⟨rfl, rfl, rfl, rfl⟩

/-! ### Claim C9: the tagged hash -/

/-- TaggedHash (src/Vanity.cpp): sha256(sha256(tag) || sha256(tag) || data).
The SHA-256 primitive is an external hash adapter, taken as a parameter. -/
def taggedHash (sha : List ℕ → List ℕ) (tag data : List ℕ) : List ℕ :=
  sha (sha tag ++ sha tag ++ data)

/-- ASCII bytes of the tag string "TapTweak". -/
def tapTweakTag : List ℕ := [84, 97, 112, 84, 119, 101, 97, 107]

/-- ASCII bytes of the tag string "BIP0340/challenge". -/
def bip340Tag : List ℕ :=
  [66, 73, 80, 48, 51, 52, 48, 47, 99, 104, 97, 108, 108, 101, 110, 103, 101]

/-- The taproot tweak call site in FindKeyGPU (src/Vanity.cpp):
TaggedHash("TapTweak", P.x bytes). -/
def taprootTweakHash (sha : List ℕ → List ℕ) (pxBytes : List ℕ) : List ℕ :=
  taggedHash sha tapTweakTag pxBytes

/-- The Schnorr challenge call site in FindKeyGPU (src/Vanity.cpp):
TaggedHash("BIP0340/challenge", R.x || P.x || m). -/
def schnorrChallengeHash (sha : List ℕ → List ℕ) (rx px m : List ℕ) : List ℕ :=
  taggedHash sha bip340Tag (rx ++ px ++ m)

/-- C9: tagged_hash(tag, data) is sha256(sha256(tag) || sha256(tag) || data),
returns 32 bytes whenever the adapter does, and the engine applies it with
the tags "TapTweak" and "BIP0340/challenge". -/
theorem c9_tagged_hash (sha : List ℕ → List ℕ)
    (hlen : ∀ b, (sha b).length = 32) (tag data rx px m : List ℕ) :
    taggedHash sha tag data = sha (sha tag ++ sha tag ++ data) ∧
    (taggedHash sha tag data).length = 32 ∧
    taprootTweakHash sha data = taggedHash sha tapTweakTag data ∧
    schnorrChallengeHash sha rx px m = taggedHash sha bip340Tag (rx ++ px ++ m) :=
  ⟨rfl, hlen _, rfl, rfl⟩

/-- Witness instantiating C9 with a constant-length 32 adapter. -/
theorem c9_tagged_hash_witness :
    taggedHash (fun _ => List.replicate 32 0) [1] [2] =
      (fun _ : List ℕ => List.replicate 32 0)
        ((fun _ : List ℕ => List.replicate 32 0) [1] ++
          (fun _ : List ℕ => List.replicate 32 0) [1] ++ [2]) ∧
    (taggedHash (fun _ => List.replicate 32 0) [1] [2]).length = 32 ∧
    taprootTweakHash (fun _ => List.replicate 32 0) [2] =
      taggedHash (fun _ => List.replicate 32 0) tapTweakTag [2] ∧
    schnorrChallengeHash (fun _ => List.replicate 32 0) [3] [4] [5] =
      taggedHash (fun _ => List.replicate 32 0) bip340Tag ([3] ++ [4] ++ [5]) :=
  c9_tagged_hash (fun _ => List.replicate 32 0) (fun _ => by simp) [1] [2] [3] [4] [5]

/-! ### Claim C10: signature grinding output -/

/-- ModInvOrder (src/Vanity.cpp): extended Euclid mod the curve order, with
the x-coefficient updates performed with ModMulK1order/ModSubK1order, i.e.
mod n.  The loop runs while v is neither 0 nor 1; it terminates within 600
iterations for 256-bit inputs, which the fuel argument makes structural. -/
def modInvOrderAux : ℕ → ℕ → ℕ → ℕ → ℕ → ℕ
  | 0, _, _, _, _ => 0
  | fuel + 1, u, v, x1, x2 =>
    if v = 0 then 0
    else if v = 1 then x2
    else
      let q := u / v
      let r := u % v
      let temp := q * x2 % secpN
      let newX2 := (x1 + (secpN - temp)) % secpN
      modInvOrderAux fuel v r x2 newX2

/-- ModInvOrder entry point: u = n, v = a, x1 = 0, x2 = 1. -/
def modInvOrder (a : ℕ) : ℕ := modInvOrderAux 600 secpN a 0 1

/-- Schnorr nonce normalization (FindKeyGPU, src/Vanity.cpp): the nonce is
negated mod n exactly when R.y is odd. -/
def schnorrNonce (k : ℕ) (ryOdd : Bool) : ℕ := if ryOdd then secpN - k else k

/-- ECDSA s computation with BIP-146 low-s normalization (FindKeyGPU,
src/Vanity.cpp): s = kinv * (z + r*d) mod n, replaced by n - s when it
exceeds halfOrder = n >> 1. -/
def ecdsaS (kinv z r d : ℕ) : ℕ :=
  let t1 := r * d % secpN
  let t2 := (t1 + z) % secpN
  let s := kinv * t2 % secpN
  if secpN / 2 < s then secpN - s else s

/-- ECDSA s as computed by the engine, with kinv produced by ModInvOrder. -/
def ecdsaSigS (k z r d : ℕ) : ℕ := ecdsaS (modInvOrder k) z r d

/-- Schnorr s (FindKeyGPU, src/Vanity.cpp): s = e*d + k mod n, emitted with
no low-s normalization. -/
def schnorrS (e d k : ℕ) : ℕ := (e * d % secpN + k) % secpN

/-- C10: every emitted ECDSA s satisfies 2s <= n (s is replaced by n - s
exactly when it exceeds n/2), whereas the Schnorr s is k + e*d mod n with no
normalization, the nonce being negated beforehand exactly when R.y is odd. -/
theorem c10_signature_s (k z r d e kn : ℕ) (_hkn : kn < secpN) :
    (2 * ecdsaSigS k z r d ≤ secpN) ∧
    (secpN / 2 < modInvOrder k * ((r * d % secpN + z) % secpN) % secpN →
      ecdsaSigS k z r d =
        secpN - modInvOrder k * ((r * d % secpN + z) % secpN) % secpN) ∧
    (modInvOrder k * ((r * d % secpN + z) % secpN) % secpN ≤ secpN / 2 →
      ecdsaSigS k z r d = modInvOrder k * ((r * d % secpN + z) % secpN) % secpN) ∧
    schnorrS e d (schnorrNonce kn true) = (e * d % secpN + (secpN - kn)) % secpN ∧
    schnorrS e d (schnorrNonce kn false) = (e * d % secpN + kn) % secpN := by
  have hpos : 0 < secpN := by norm_num [secpN]
  have hs : modInvOrder k * ((r * d % secpN + z) % secpN) % secpN < secpN :=
    Nat.mod_lt _ hpos
  unfold ecdsaSigS ecdsaS schnorrS schnorrNonce
  refine ⟨?_, ?_, ?_, rfl, rfl⟩
  · dsimp only
    split <;> omega
  · intro h
    dsimp only
    rw [if_pos h]
  · intro h
    dsimp only
    rw [if_neg (by omega)]

/-- Witness instantiating C10 at small concrete signature data. -/
theorem c10_signature_s_witness :
    (2 * ecdsaSigS 3 5 7 11 ≤ secpN) ∧
    (secpN / 2 < modInvOrder 3 * ((7 * 11 % secpN + 5) % secpN) % secpN →
      ecdsaSigS 3 5 7 11 =
        secpN - modInvOrder 3 * ((7 * 11 % secpN + 5) % secpN) % secpN) ∧
    (modInvOrder 3 * ((7 * 11 % secpN + 5) % secpN) % secpN ≤ secpN / 2 →
      ecdsaSigS 3 5 7 11 = modInvOrder 3 * ((7 * 11 % secpN + 5) % secpN) % secpN) ∧
    schnorrS 13 11 (schnorrNonce 17 true) = (13 * 11 % secpN + (secpN - 17)) % secpN ∧
    schnorrS 13 11 (schnorrNonce 17 false) = (13 * 11 % secpN + 17) % secpN :=
  c10_signature_s 3 5 7 11 13 17 (by norm_num [secpN])

/-! ### Claim C3: the taproot engine -/

/-- ModReduceOrder (src/GPU/GPUCompute.h): a single conditional subtraction
of the curve order (CompareWithOrder followed by SubtractOrder). -/
def modReduceOrder (s : ℕ) : ℕ := if secpN ≤ s then s - secpN else s

/-- PointAddAffine (src/GPU/GPUCompute.h): affine chord addition used by the
taproot kernel; s = (By-Ay)/(Bx-Ax), Rx = s^2-Ax-Bx, Ry = s*(Ax-Rx)-Ay. -/
def pointAddAffine (ax ay bx bYc : ℕ) : ℕ × ℕ :=
  let dy := fsub bYc ay
  let dx := fsub bx ax
  let s := fmul dy (finv dx)
  let rx := fsub (fsub (fmul s s) ax) bx
  let ry := fsub (fmul s (fsub ax rx)) ay
  (rx, ry)

/-- PointDoubleAffine (src/GPU/GPUCompute.h): affine doubling;
s = 3*Px^2/(2*Py), Rx = s^2 - 2*Px, Ry = s*(Px-Rx) - Py. -/
def pointDoubleAffine (px py : ℕ) : ℕ × ℕ :=
  let n2 := fmul px px
  let num := fadd (fadd n2 n2) n2
  let denom := fadd py py
  let s := fmul num (finv denom)
  let rx := fsub (fsub (fmul s s) px) px
  let ry := fsub (fmul s (fsub px rx)) py
  (rx, ry)

/-- ScalarMultG (src/GPU/GPUCompute.h): double-and-add over the 256 scalar
bits from LSB to MSB, tracking an infinity flag; the doubling of the running
point after the last bit is dead computation, exactly as in the source. -/
def scalarMultAux : ℕ → ℕ × ℕ → ℕ → Option (ℕ × ℕ) → Option (ℕ × ℕ)
  | 0, _, _, acc => acc
  | fuel + 1, cur, k, acc =>
    let acc1 := if k % 2 = 1 then
        match acc with
        | none => some cur
        | some r => some (pointAddAffine r.1 r.2 cur.1 cur.2)
      else acc
    scalarMultAux fuel (pointDoubleAffine cur.1 cur.2) (k / 2) acc1

/-- ScalarMultG result, with infinity materialized as (0,0) as in the
source. -/
def scalarMultG (k : ℕ) : ℕ × ℕ :=
  match scalarMultAux 256 (genX, genY) k none with
  | some r => r
  | none => (0, 0)

/-- CheckTaprootMatch (src/GPU/GPUCompute.h): the same limbwise mask loop as
CheckStegoPoint, applied to Q.x. -/
def checkTaprootMatch (qx value mask : ℕ) : Bool := gpuStegoMatch qx value mask

/-- One call of ComputeKeysTaproot (src/GPU/GPUCompute.h) for one thread:
t = tweak hash of P.x reduced mod n, Q = P + t*G by one full scalar
multiplication plus one point addition, the mask is tested on Q.x, and the
thread start point advances to P + G.  shaTT abstracts the device
SHA256_TapTweak/HashToScalar256 pair (tagged hash of P.x as a 256-bit
number). -/
def taprootKernelStep (shaTT : ℕ → ℕ) (value mask px py : ℕ) :
    Bool × (ℕ × ℕ) :=
  let t0 := shaTT px
  let t := modReduceOrder t0
  let tG := scalarMultG t
  let q := pointAddAffine px py tG.1 tG.2
  let matched := checkTaprootMatch q.1 value mask
  let next := pointAddAffine px py genX genY
  (matched, next)

/-- Host-side taproot accounting (FindKeyGPU, src/Vanity.cpp): keys advance
by exactly 1 per kernel call. -/
def taprootHostKeyAdvance (k : ℕ) : ℕ := k + 1

/-- C3: per candidate the taproot kernel computes t = TaggedHash of P.x
reduced mod n (single conditional subtraction equals reduction since the hash
is below 2n), performs one full scalar multiplication t*G, adds it to P, and
tests the bitmask against Q.x (not P.x); the start point advances by exactly
one G per pass, and the host advances each thread key by exactly 1. -/
theorem c3_taproot_kernel (shaTT : ℕ → ℕ) (value mask px py k : ℕ)
    (hh : shaTT px < 2 ^ 256) :
    modReduceOrder (shaTT px) = shaTT px % secpN ∧
    (taprootKernelStep shaTT value mask px py).1 =
      checkTaprootMatch
        (pointAddAffine px py (scalarMultG (modReduceOrder (shaTT px))).1
          (scalarMultG (modReduceOrder (shaTT px))).2).1 value mask ∧
    (taprootKernelStep shaTT value mask px py).2 =
      pointAddAffine px py genX genY ∧
    taprootHostKeyAdvance k = k + 1 := by
  refine ⟨?_, rfl, rfl, rfl⟩
  unfold modReduceOrder
  have h2n : 2 ^ 256 < 2 * secpN := by norm_num [secpN]
  split
  · next hle =>
      rw [Nat.mod_eq_sub_mod hle, Nat.mod_eq_of_lt (by omega)]
  · next hlt =>
      rw [Nat.mod_eq_of_lt (by omega)]

/-- Witness instantiating C3 with a constant tweak-hash adapter. -/
theorem c3_taproot_kernel_witness :
    modReduceOrder ((fun _ : ℕ => 5) 2) = (fun _ : ℕ => 5) 2 % secpN ∧
    (taprootKernelStep (fun _ => 5) 0 0 2 3).1 =
      checkTaprootMatch
        (pointAddAffine 2 3 (scalarMultG (modReduceOrder ((fun _ : ℕ => 5) 2))).1
          (scalarMultG (modReduceOrder ((fun _ : ℕ => 5) 2))).2).1 0 0 ∧
    (taprootKernelStep (fun _ => 5) 0 0 2 3).2 =
      pointAddAffine 2 3 genX genY ∧
    taprootHostKeyAdvance 9 = 9 + 1 :=
  c3_taproot_kernel (fun _ => 5) 0 0 2 3 9 (by norm_num)

/-! ### Claim C7: the mismatch handling of checkPrivKey -/

/-- Negation of the y coordinate (sp.y.ModNeg in the source). -/
def pointNegY : PointN → PointN
  | .inf => .inf
  | .mk x y => .mk x (fneg y)

/-- The endomorphism multiplication of the reconstructed scalar
(checkPrivKey, src/Vanity.cpp): multiply by lambda for endo 1 and by lambda2
for endo 2, mod n. -/
def endoK (k endo : ℕ) : ℕ :=
  match endo with
  | 1 => k * lambda % secpN
  | 2 => k * lambda2 % secpN
  | _ => k

/-- The scalar reconstruction of checkPrivKey (src/Vanity.cpp): add incr for
nonnegative incr; add |incr| and negate mod n for negative incr; then apply
the endomorphism multiplication. -/
def reconKey (key : ℕ) (incr : ℤ) (endo : ℕ) : ℕ :=
  if incr < 0 then endoK (secpN - (key + incr.natAbs)) endo
  else endoK (key + incr.natAbs) endo

/-- The startPubKey transformation of checkPrivKey (src/Vanity.cpp): negate
y when incr is negative, multiply x by beta or beta2 per the endomorphism
index. -/
def spTransform (incr : ℤ) (endo : ℕ) : PointN → PointN
  | .inf => .inf
  | .mk x y =>
    let y1 := if incr < 0 then fneg y else y
    let x1 := match endo with
      | 1 => fmul x beta
      | 2 => fmul x beta2
      | _ => x
    .mk x1 y1

/-- Outcome of checkPrivKey: whether the record was accepted, the lines
written to the output sink, whether a warning was printed, and whether the
negated-key second attempt ran. -/
structure CheckOutcome where
  ok : Bool
  written : List (ℕ × ℕ)
  warned : Bool
  secondTried : Bool
deriving DecidableEq

/-- The public point computed from the reconstructed scalar on the first
attempt of checkPrivKey (src/Vanity.cpp): k*G, plus the transformed offset
key when one is specified. -/
def reconPoint (key : ℕ) (incr : ℤ) (endo : ℕ) (sp : Option PointN) : PointN :=
  match sp with
  | some q => ecAdd (mulG (reconKey key incr endo)) (spTransform incr endo q)
  | none => mulG (reconKey key incr endo)

/-- The public point computed on the second attempt of checkPrivKey: the key
negated mod n (k.Neg(); k.Add(order)), with the offset key y-negated again. -/
def reconPointNeg (key : ℕ) (incr : ℤ) (endo : ℕ) (sp : Option PointN) : PointN :=
  match sp with
  | some q => ecAdd (mulG (secpN - reconKey key incr endo))
      (pointNegY (spTransform incr endo q))
  | none => mulG (secpN - reconKey key incr endo)

/-- VanitySearch::checkPrivKey (src/Vanity.cpp).  addrOf abstracts the
external GetAddress codec (per mode and point).  The reconstructed key is
re-verified; on mismatch exactly one second attempt runs with the key negated
mod n (and the offset key y-negated); if that also fails a warning is printed,
nothing is written, and false is returned. -/
def checkPrivKey (addrOf : Bool → PointN → ℕ) (addr key : ℕ) (incr : ℤ)
    (endo : ℕ) (mode : Bool) (sp : Option PointN) : CheckOutcome :=
  let k := reconKey key incr endo
  if addrOf mode (reconPoint key incr endo sp) = addr then
    { ok := true, written := [(addr, k)], warned := false, secondTried := false }
  else if addrOf mode (reconPointNeg key incr endo sp) = addr then
    { ok := true, written := [(addr, secpN - k)], warned := false,
      secondTried := true }
  else
    { ok := false, written := [], warned := true, secondTried := true }

/-- The caller's counter update (checkAddr, src/Vanity.cpp): nbFoundKey is
incremented exactly when checkPrivKey returns true. -/
def foundIncrement (o : CheckOutcome) : ℕ := if o.ok then 1 else 0

/-- C7: when the reconstructed key fails re-verification, exactly one second
attempt runs with the key negated mod n; when that also fails, a warning is
emitted, the record is not written to the output sink, the found counter is
not incremented, and the call returns false (the search continues). -/
theorem c7_mismatch_handling (addrOf : Bool → PointN → ℕ) (addr key : ℕ)
    (incr : ℤ) (endo : ℕ) (mode : Bool) (sp : Option PointN)
    (h1 : addrOf mode (reconPoint key incr endo sp) ≠ addr)
    (h2 : addrOf mode (reconPointNeg key incr endo sp) ≠ addr) :
    checkPrivKey addrOf addr key incr endo mode sp =
      { ok := false, written := [], warned := true, secondTried := true } ∧
    foundIncrement (checkPrivKey addrOf addr key incr endo mode sp) = 0 := by
  have hres : checkPrivKey addrOf addr key incr endo mode sp =
      { ok := false, written := [], warned := true, secondTried := true } := by
    unfold checkPrivKey
    rw [if_neg h1, if_neg h2]
  exact ⟨hres, by rw [hres]; rfl⟩

/-- Witness instantiating C7 with a codec that never matches the target. -/
theorem c7_mismatch_handling_witness :
    checkPrivKey (fun _ _ => 0) 1 2 3 0 true none =
      { ok := false, written := [], warned := true, secondTried := true } ∧
    foundIncrement (checkPrivKey (fun _ _ => 0) 1 2 3 0 true none) = 0 :=
  c7_mismatch_handling (fun _ _ => 0) 1 2 3 0 true none
    (by norm_num) (by norm_num)


/-! ### The Mathlib model of the curve -/

/-- The secp256k1 curve y^2 = x^3 + 7 over the prime field. -/
def W : WeierstrassCurve.Affine (ZMod secpP) :=
  { a₁ := 0, a₂ := 0, a₃ := 0, a₄ := 0, a₆ := 7 }

lemma Wa1 : W.a₁ = 0 := rfl

lemma Wa2 : W.a₂ = 0 := rfl

lemma Wa3 : W.a₃ = 0 := rfl

lemma Wa4 : W.a₄ = 0 := rfl

lemma Wa6 : W.a₆ = 7 := rfl

lemma secpP_pos : 0 < secpP := by norm_num [secpP]

instance neZeroSecpP : NeZero secpP := ⟨by norm_num [secpP]⟩

/-- The discriminant of the curve does not vanish. -/
lemma W_delta_ne : W.Δ ≠ 0 := by
  have hval : W.Δ = (-21168 : ZMod secpP) := by
    rw [WeierstrassCurve.Δ, WeierstrassCurve.b₂, WeierstrassCurve.b₄,
      WeierstrassCurve.b₆, WeierstrassCurve.b₈, Wa1, Wa2, Wa3, Wa4, Wa6]
    norm_num
  rw [hval]
  have hcast : ((-21168 : ℤ) : ZMod secpP) = (-21168 : ZMod secpP) := by
    push_cast
    ring
  rw [← hcast, Ne, ZMod.intCast_zmod_eq_zero_iff_dvd]
  intro hdvd
  have h1 : (secpP : ℤ) ∣ 21168 := dvd_neg.mp hdvd
  have h2 : (secpP : ℤ) ≤ 21168 := Int.le_of_dvd (by norm_num) h1
  have h3 : (21168 : ℤ) < secpP := by norm_num [secpP]
  omega

/-- The Weierstrass equation of W specialized to y^2 = x^3 + 7. -/
lemma W_equation_iff (x y : ZMod secpP) : W.Equation x y ↔ y ^ 2 = x ^ 3 + 7 := by
  rw [WeierstrassCurve.Affine.equation_iff, Wa1, Wa2, Wa3, Wa4, Wa6]
  constructor <;> intro h <;> linear_combination h

/-- Negation of the y coordinate in W. -/
lemma W_negY (x y : ZMod secpP) : W.negY x y = -y := by
  rw [WeierstrassCurve.Affine.negY, Wa1, Wa3]
  ring

/-! ### Casting the executable field operations into ZMod -/

lemma cast_fadd (a b : ℕ) : ((fadd a b : ℕ) : ZMod secpP) = a + b := by
  unfold fadd
  rw [ZMod.natCast_mod]
  push_cast
  ring

lemma cast_fmul (a b : ℕ) : ((fmul a b : ℕ) : ZMod secpP) = a * b := by
  unfold fmul
  rw [ZMod.natCast_mod]
  push_cast
  ring

lemma cast_fsub (a b : ℕ) : ((fsub a b : ℕ) : ZMod secpP) = a - b := by
  unfold fsub
  have hble : b % secpP ≤ secpP := le_of_lt (Nat.mod_lt _ secpP_pos)
  rw [ZMod.natCast_mod]
  push_cast [Nat.cast_sub hble]
  rw [ZMod.natCast_self, ZMod.natCast_mod]
  ring

lemma cast_fneg (a : ℕ) : ((fneg a : ℕ) : ZMod secpP) = -(a : ZMod secpP) := by
  unfold fneg
  have hble : a % secpP ≤ secpP := le_of_lt (Nat.mod_lt _ secpP_pos)
  rw [ZMod.natCast_mod]
  push_cast [Nat.cast_sub hble]
  rw [ZMod.natCast_self, ZMod.natCast_mod]
  ring

lemma cast_finv (a : ℕ) : ((finv a : ℕ) : ZMod secpP) = (a : ZMod secpP) ^ (secpP - 2) := by
  unfold finv
  rw [powMod_correct 257 a (secpP - 2) secpP (by norm_num [secpP])]
  rw [ZMod.natCast_mod, Nat.cast_pow]

/-- Fermat inverse: the finv power is the field inverse of a nonzero element. -/
lemma cast_finv_inv (a : ℕ) (ha : (a : ZMod secpP) ≠ 0) :
    ((finv a : ℕ) : ZMod secpP) = (a : ZMod secpP)⁻¹ := by
  rw [cast_finv]
  have h1 : (a : ZMod secpP) ^ (secpP - 2) * a = 1 := by
    have h3 : secpP - 1 = secpP - 2 + 1 := by norm_num [secpP]
    have h2 : (a : ZMod secpP) ^ (secpP - 1) = 1 := ZMod.pow_card_sub_one_eq_one ha
    rw [h3, pow_succ] at h2
    exact h2
  exact eq_inv_of_mul_eq_one_left h1

lemma fadd_lt (a b : ℕ) : fadd a b < secpP := Nat.mod_lt _ secpP_pos

lemma fsub_lt (a b : ℕ) : fsub a b < secpP := Nat.mod_lt _ secpP_pos

lemma fmul_lt (a b : ℕ) : fmul a b < secpP := Nat.mod_lt _ secpP_pos

lemma fneg_lt (a : ℕ) : fneg a < secpP := Nat.mod_lt _ secpP_pos

/-- The fsub-based equality test of ecAdd decides equality in the field. -/
lemma fsub_eq_zero_iff (a b : ℕ) : fsub a b = 0 ↔ (a : ZMod secpP) = b := by
  constructor
  · intro h
    have hc := cast_fsub a b
    rw [h, Nat.cast_zero] at hc
    exact sub_eq_zero.mp hc.symm
  · intro h
    have hc : ((fsub a b : ℕ) : ZMod secpP) = 0 := by
      rw [cast_fsub, h, sub_self]
    have hdvd : secpP ∣ fsub a b := (ZMod.natCast_zmod_eq_zero_iff_dvd _ _).mp hc
    exact Nat.eq_zero_of_dvd_of_lt hdvd (fsub_lt a b)

/-- The fadd-based test of ecAdd decides whether y1 is the negation of y2. -/
lemma fadd_eq_zero_iff (a b : ℕ) :
    fadd a b = 0 ↔ (a : ZMod secpP) = -(b : ZMod secpP) := by
  constructor
  · intro h
    have hc := cast_fadd a b
    rw [h, Nat.cast_zero] at hc
    linear_combination -hc
  · intro h
    have hc : ((fadd a b : ℕ) : ZMod secpP) = 0 := by
      rw [cast_fadd, h]
      ring
    have hdvd : secpP ∣ fadd a b := (ZMod.natCast_zmod_eq_zero_iff_dvd _ _).mp hc
    exact Nat.eq_zero_of_dvd_of_lt hdvd (fadd_lt a b)

/-! ### The bridge between PointN and the Mathlib points -/

/-- The Nat-level curve equation matches the Weierstrass equation of W. -/
lemma onCurveN_mk_iff (x y : ℕ) :
    onCurveN (.mk x y) ↔ W.Equation (x : ZMod secpP) (y : ZMod secpP) := by
  unfold onCurveN
  rw [W_equation_iff]
  constructor
  · intro h
    have hc : ((y * y : ℕ) : ZMod secpP) = ((x * x % secpP * x + 7 : ℕ) : ZMod secpP) :=
      (ZMod.natCast_eq_natCast_iff _ _ _).mpr h
    push_cast [ZMod.natCast_mod] at hc
    linear_combination hc
  · intro h
    have hc : ((y * y : ℕ) : ZMod secpP) = ((x * x % secpP * x + 7 : ℕ) : ZMod secpP) := by
      push_cast [ZMod.natCast_mod]
      linear_combination h
    exact (ZMod.natCast_eq_natCast_iff _ _ _).mp hc

lemma nonsingular_of_onCurveN {x y : ℕ} (h : onCurveN (.mk x y)) :
    W.Nonsingular (x : ZMod secpP) (y : ZMod secpP) :=
  W.nonsingular_of_Δ_ne_zero ((onCurveN_mk_iff x y).mp h) W_delta_ne

/-- The interpretation of an executable point as a Mathlib point. -/
def toM : (P : PointN) → onCurveN P → W.Point
  | .inf, _ => .zero
  | .mk _ _, h => .some (nonsingular_of_onCurveN h)

lemma toM_irrel (P : PointN) (h1 h2 : onCurveN P) : toM P h1 = toM P h2 := rfl

/-- Mathlib points with provably equal coordinates are equal. -/
lemma some_eq_some {x1 y1 x2 y2 : ZMod secpP} (hx : x1 = x2) (hy : y1 = y2)
    (h1 : W.Nonsingular x1 y1) (h2 : W.Nonsingular x2 y2) :
    WeierstrassCurve.Affine.Point.some h1 = .some h2 := by
  subst hx
  subst hy
  rfl

/-- Coordinates in canonical range, the invariant of the field layer. -/
def canonical : PointN → Prop
  | .inf => True
  | .mk x y => x < secpP ∧ y < secpP

/-- toM is injective on points with canonical coordinates. -/
lemma toM_inj {P Q : PointN} (hP : onCurveN P) (hQ : onCurveN Q)
    (hcP : canonical P) (hcQ : canonical Q) (h : toM P hP = toM Q hQ) : P = Q := by
  cases P with
  | inf =>
    cases Q with
    | inf => rfl
    | mk x2 y2 =>
      exact absurd h.symm (WeierstrassCurve.Affine.Point.some_ne_zero _)
  | mk x1 y1 =>
    cases Q with
    | inf => exact absurd h (WeierstrassCurve.Affine.Point.some_ne_zero _)
    | mk x2 y2 =>
      injection h with hx hy
      obtain ⟨hx1, hy1⟩ := hcP
      obtain ⟨hx2, hy2⟩ := hcQ
      have hxx : x1 = x2 := by
        have := congrArg ZMod.val hx
        rwa [ZMod.val_natCast, ZMod.val_natCast, Nat.mod_eq_of_lt hx1,
          Nat.mod_eq_of_lt hx2] at this
      have hyy : y1 = y2 := by
        have := congrArg ZMod.val hy
        rwa [ZMod.val_natCast, ZMod.val_natCast, Nat.mod_eq_of_lt hy1,
          Nat.mod_eq_of_lt hy2] at this
      rw [hxx, hyy]

/-! ### The addition law bridge -/

lemma cast_addXr (s x1 x2 : ℕ) :
    ((addXr s x1 x2 : ℕ) : ZMod secpP) = (s : ZMod secpP) ^ 2 - x1 - x2 := by
  unfold addXr
  rw [cast_fsub, cast_fsub, cast_fmul]
  ring

lemma cast_addYr (s x1 xr y1 : ℕ) :
    ((addYr s x1 xr y1 : ℕ) : ZMod secpP) =
      (s : ZMod secpP) * ((x1 : ZMod secpP) - xr) - y1 := by
  unfold addYr
  rw [cast_fsub, cast_fmul, cast_fsub]

/-- The executable x formula matches Mathlib's addX under a slope match. -/
lemma addXr_eq (s x1 x2 : ℕ) (L : ZMod secpP) (hs : (s : ZMod secpP) = L) :
    ((addXr s x1 x2 : ℕ) : ZMod secpP) = W.addX (x1 : ZMod secpP) x2 L := by
  rw [cast_addXr, WeierstrassCurve.Affine.addX, Wa1, Wa2, hs]
  ring

/-- The executable y formula matches Mathlib's addY under a slope match. -/
lemma addYr_eq (s x1 x2 y1 : ℕ) (L : ZMod secpP) (hs : (s : ZMod secpP) = L) :
    ((addYr s x1 (addXr s x1 x2) y1 : ℕ) : ZMod secpP) =
      W.addY (x1 : ZMod secpP) x2 y1 L := by
  rw [cast_addYr, addXr_eq s x1 x2 L hs, WeierstrassCurve.Affine.addY,
    WeierstrassCurve.Affine.negAddY, W_negY, hs]
  ring

/-- The executable tangent slope matches Mathlib's slope in the doubling
case. -/
lemma slope_tangent (x1 x2 y1 y2 : ℕ) (hx : (x1 : ZMod secpP) = x2)
    (hy : (y1 : ZMod secpP) ≠ W.negY x2 y2)
    (h2y : (y1 : ZMod secpP) + y1 ≠ 0) :
    ((tangentS x1 y1 : ℕ) : ZMod secpP) =
      W.slope (x1 : ZMod secpP) x2 y1 y2 := by
  unfold tangentS
  rw [cast_fmul, cast_fmul, cast_fmul,
    cast_finv_inv _ (by rw [cast_fadd]; exact h2y), cast_fadd]
  rw [WeierstrassCurve.Affine.slope_of_Y_ne hx hy, Wa1, Wa2, Wa4, W_negY]
  rw [div_eq_mul_inv, sub_neg_eq_add]
  ring

/-- The executable chord slope matches Mathlib's slope in the generic case. -/
lemma slope_chord (x1 y1 x2 y2 : ℕ) (hx : (x1 : ZMod secpP) ≠ x2) :
    ((chordS x1 y1 x2 y2 : ℕ) : ZMod secpP) =
      W.slope (x1 : ZMod secpP) x2 y1 y2 := by
  unfold chordS
  have hsub0 : ((fsub x1 x2 : ℕ) : ZMod secpP) ≠ 0 := by
    rw [cast_fsub]
    exact sub_ne_zero.mpr hx
  rw [cast_fmul, cast_finv_inv _ hsub0, cast_fsub, cast_fsub]
  rw [WeierstrassCurve.Affine.slope_of_X_ne hx, div_eq_mul_inv]

/-- The complete executable addition tracks the Mathlib group operation. -/
lemma ecAdd_bridge {P Q : PointN} (hP : onCurveN P) (hQ : onCurveN Q) :
    ∃ h : onCurveN (ecAdd P Q), toM (ecAdd P Q) h = toM P hP + toM Q hQ := by
  cases P with
  | inf =>
    cases Q with
    | inf =>
      refine ⟨trivial, ?_⟩
      show (0 : W.Point) = 0 + 0
      rw [zero_add]
    | mk x2 y2 =>
      refine ⟨hQ, ?_⟩
      show toM (PointN.mk x2 y2) hQ = 0 + toM (PointN.mk x2 y2) hQ
      rw [zero_add]
  | mk x1 y1 =>
    cases Q with
    | inf =>
      refine ⟨hP, ?_⟩
      show toM (PointN.mk x1 y1) hP = toM (PointN.mk x1 y1) hP + 0
      rw [add_zero]
    | mk x2 y2 =>
      have h1 := nonsingular_of_onCurveN hP
      have h2 := nonsingular_of_onCurveN hQ
      have hred : ecAdd (.mk x1 y1) (.mk x2 y2) =
          (if fsub x1 x2 = 0 then
            (if fadd y1 y2 = 0 then PointN.inf
             else PointN.mk (addXr (tangentS x1 y1) x1 x2)
               (addYr (tangentS x1 y1) x1 (addXr (tangentS x1 y1) x1 x2) y1))
          else PointN.mk (addXr (chordS x1 y1 x2 y2) x1 x2)
            (addYr (chordS x1 y1 x2 y2) x1
              (addXr (chordS x1 y1 x2 y2) x1 x2) y1)) := rfl
      by_cases hx : fsub x1 x2 = 0
      · have hx2 : (x1 : ZMod secpP) = x2 := (fsub_eq_zero_iff x1 x2).mp hx
        by_cases hy : fadd y1 y2 = 0
        · have heq : ecAdd (.mk x1 y1) (.mk x2 y2) = .inf := by
            rw [hred, if_pos hx, if_pos hy]
          rw [heq]
          refine ⟨trivial, ?_⟩
          have hy2 : (y1 : ZMod secpP) = W.negY x2 y2 := by
            rw [W_negY]
            exact (fadd_eq_zero_iff y1 y2).mp hy
          exact (WeierstrassCurve.Affine.Point.add_of_Y_eq hx2 hy2).symm
        · have heq : ecAdd (.mk x1 y1) (.mk x2 y2) =
              .mk (addXr (tangentS x1 y1) x1 x2)
                (addYr (tangentS x1 y1) x1 (addXr (tangentS x1 y1) x1 x2) y1) := by
            rw [hred, if_pos hx, if_neg hy]
          have hy2 : (y1 : ZMod secpP) ≠ W.negY x2 y2 := by
            rw [W_negY]
            intro hc
            exact hy ((fadd_eq_zero_iff y1 y2).mpr hc)
          have hyy : (y1 : ZMod secpP) = y2 :=
            WeierstrassCurve.Affine.Y_eq_of_Y_ne h1.1 h2.1 hx2 hy2
          have h2y : (y1 : ZMod secpP) + y1 ≠ 0 := by
            intro hc
            apply hy2
            rw [W_negY, ← hyy]
            exact eq_neg_of_add_eq_zero_left hc
          have hs := slope_tangent x1 x2 y1 y2 hx2 hy2 h2y
          have hxr := addXr_eq (tangentS x1 y1) x1 x2 _ hs
          have hyr := addYr_eq (tangentS x1 y1) x1 x2 y1 _ hs
          have hns : W.Nonsingular
              ((addXr (tangentS x1 y1) x1 x2 : ℕ) : ZMod secpP)
              ((addYr (tangentS x1 y1) x1 (addXr (tangentS x1 y1) x1 x2) y1 : ℕ) :
                ZMod secpP) := by
            rw [hxr, hyr]
            exact WeierstrassCurve.Affine.nonsingular_add h1 h2 fun _ => hy2
          have hOC : onCurveN (PointN.mk (addXr (tangentS x1 y1) x1 x2)
              (addYr (tangentS x1 y1) x1 (addXr (tangentS x1 y1) x1 x2) y1)) :=
            (onCurveN_mk_iff _ _).mpr hns.1
          rw [heq]
          refine ⟨hOC, ?_⟩
          have hL : toM (PointN.mk (addXr (tangentS x1 y1) x1 x2)
              (addYr (tangentS x1 y1) x1 (addXr (tangentS x1 y1) x1 x2) y1)) hOC =
              WeierstrassCurve.Affine.Point.some (nonsingular_of_onCurveN hOC) := rfl
          rw [hL]
          rw [show toM (PointN.mk x1 y1) hP =
            WeierstrassCurve.Affine.Point.some h1 from rfl]
          rw [show toM (PointN.mk x2 y2) hQ =
            WeierstrassCurve.Affine.Point.some h2 from rfl]
          rw [WeierstrassCurve.Affine.Point.add_of_Y_ne hy2]
          exact some_eq_some hxr hyr _ _
      · have hx2 : (x1 : ZMod secpP) ≠ x2 := fun hc =>
          hx ((fsub_eq_zero_iff x1 x2).mpr hc)
        have heq : ecAdd (.mk x1 y1) (.mk x2 y2) =
            .mk (addXr (chordS x1 y1 x2 y2) x1 x2)
              (addYr (chordS x1 y1 x2 y2) x1
                (addXr (chordS x1 y1 x2 y2) x1 x2) y1) := by
          rw [hred, if_neg hx]
        have hs := slope_chord x1 y1 x2 y2 hx2
        have hxr := addXr_eq (chordS x1 y1 x2 y2) x1 x2 _ hs
        have hyr := addYr_eq (chordS x1 y1 x2 y2) x1 x2 y1 _ hs
        have hns : W.Nonsingular
            ((addXr (chordS x1 y1 x2 y2) x1 x2 : ℕ) : ZMod secpP)
            ((addYr (chordS x1 y1 x2 y2) x1
              (addXr (chordS x1 y1 x2 y2) x1 x2) y1 : ℕ) : ZMod secpP) := by
          rw [hxr, hyr]
          exact WeierstrassCurve.Affine.nonsingular_add h1 h2 fun hc => (hx2 hc).elim
        have hOC : onCurveN (PointN.mk (addXr (chordS x1 y1 x2 y2) x1 x2)
            (addYr (chordS x1 y1 x2 y2) x1
              (addXr (chordS x1 y1 x2 y2) x1 x2) y1)) :=
          (onCurveN_mk_iff _ _).mpr hns.1
        rw [heq]
        refine ⟨hOC, ?_⟩
        have hL : toM (PointN.mk (addXr (chordS x1 y1 x2 y2) x1 x2)
            (addYr (chordS x1 y1 x2 y2) x1
              (addXr (chordS x1 y1 x2 y2) x1 x2) y1)) hOC =
            WeierstrassCurve.Affine.Point.some (nonsingular_of_onCurveN hOC) := rfl
        rw [hL]
        rw [show toM (PointN.mk x1 y1) hP =
          WeierstrassCurve.Affine.Point.some h1 from rfl]
        rw [show toM (PointN.mk x2 y2) hQ =
          WeierstrassCurve.Affine.Point.some h2 from rfl]
        rw [WeierstrassCurve.Affine.Point.add_of_X_ne hx2]
        exact some_eq_some hxr hyr _ _

/-! ### Scalar multiplication bridge -/

instance canonical.decPred : DecidablePred canonical := fun P =>
  match P with
  | .inf => .isTrue trivial
  | .mk x y => inferInstanceAs (Decidable (x < secpP ∧ y < secpP))

/-- ecAdd keeps coordinates in canonical range. -/
lemma canonical_ecAdd {P Q : PointN} (hP : canonical P) (hQ : canonical Q) :
    canonical (ecAdd P Q) := by
  cases P with
  | inf =>
    cases Q with
    | inf => exact trivial
    | mk x2 y2 => exact hQ
  | mk x1 y1 =>
    cases Q with
    | inf => exact hP
    | mk x2 y2 =>
      have hred : ecAdd (.mk x1 y1) (.mk x2 y2) =
          (if fsub x1 x2 = 0 then
            (if fadd y1 y2 = 0 then PointN.inf
             else PointN.mk (addXr (tangentS x1 y1) x1 x2)
               (addYr (tangentS x1 y1) x1 (addXr (tangentS x1 y1) x1 x2) y1))
          else PointN.mk (addXr (chordS x1 y1 x2 y2) x1 x2)
            (addYr (chordS x1 y1 x2 y2) x1
              (addXr (chordS x1 y1 x2 y2) x1 x2) y1)) := rfl
      rw [hred]
      by_cases hx : fsub x1 x2 = 0
      · rw [if_pos hx]
        by_cases hy : fadd y1 y2 = 0
        · rw [if_pos hy]; exact trivial
        · rw [if_neg hy]; exact ⟨Nat.mod_lt _ secpP_pos, Nat.mod_lt _ secpP_pos⟩
      · rw [if_neg hx]; exact ⟨Nat.mod_lt _ secpP_pos, Nat.mod_lt _ secpP_pos⟩

/-- Double-and-add tracks group-theoretic scalar multiplication. -/
lemma mulP_bridge : ∀ (fuel : ℕ) (P : PointN) (hP : onCurveN P) (k : ℕ),
    k < 2 ^ fuel →
    ∃ h : onCurveN (mulP fuel P k), toM (mulP fuel P k) h = k • toM P hP
  | 0, P, hP, k, hk => by
    have hk0 : k = 0 := by
      have h1 : (2 : ℕ) ^ 0 = 1 := pow_zero 2
      omega
    subst hk0
    exact ⟨trivial, by rw [zero_nsmul]; rfl⟩
  | fuel + 1, P, hP, k, hk => by
    obtain ⟨hadd, hadd_eq⟩ := ecAdd_bridge hP hP
    by_cases hk0 : k = 0
    · subst hk0
      have he : mulP (fuel + 1) P 0 = .inf := rfl
      rw [he]
      exact ⟨trivial, by rw [zero_nsmul]; rfl⟩
    · have hk2 : k / 2 < 2 ^ fuel := by
        have hp : (2 : ℕ) ^ (fuel + 1) = 2 ^ fuel * 2 := pow_succ 2 fuel
        omega
      obtain ⟨hr, hr_eq⟩ := mulP_bridge fuel (ecAdd P P) hadd (k / 2) hk2
      by_cases hodd : k % 2 = 1
      · have he : mulP (fuel + 1) P k = ecAdd (mulP fuel (ecAdd P P) (k / 2)) P := by
          show (if k = 0 then PointN.inf
            else if k % 2 = 1 then ecAdd (mulP fuel (ecAdd P P) (k / 2)) P
            else mulP fuel (ecAdd P P) (k / 2)) = _
          rw [if_neg hk0, if_pos hodd]
        obtain ⟨hfin, hfin_eq⟩ := ecAdd_bridge hr hP
        rw [he]
        refine ⟨hfin, ?_⟩
        rw [hfin_eq, hr_eq, hadd_eq, nsmul_add, ← add_nsmul, ← succ_nsmul]
        congr 1
        omega
      · have he : mulP (fuel + 1) P k = mulP fuel (ecAdd P P) (k / 2) := by
          show (if k = 0 then PointN.inf
            else if k % 2 = 1 then ecAdd (mulP fuel (ecAdd P P) (k / 2)) P
            else mulP fuel (ecAdd P P) (k / 2)) = _
          rw [if_neg hk0, if_neg hodd]
        rw [he]
        refine ⟨hr, ?_⟩
        rw [hr_eq, hadd_eq, nsmul_add, ← add_nsmul]
        congr 1
        omega

/-- Double-and-add keeps coordinates canonical. -/
lemma canonical_mulP : ∀ (fuel : ℕ) (P : PointN), canonical P → ∀ k : ℕ,
    canonical (mulP fuel P k)
  | 0, _, _, _ => trivial
  | fuel + 1, P, hP, k => by
    by_cases hk0 : k = 0
    · subst hk0
      have he : mulP (fuel + 1) P 0 = .inf := rfl
      rw [he]
      exact trivial
    · have hr := canonical_mulP fuel (ecAdd P P) (canonical_ecAdd hP hP) (k / 2)
      by_cases hodd : k % 2 = 1
      · have he : mulP (fuel + 1) P k = ecAdd (mulP fuel (ecAdd P P) (k / 2)) P := by
          show (if k = 0 then PointN.inf
            else if k % 2 = 1 then ecAdd (mulP fuel (ecAdd P P) (k / 2)) P
            else mulP fuel (ecAdd P P) (k / 2)) = _
          rw [if_neg hk0, if_pos hodd]
        rw [he]
        exact canonical_ecAdd hr hP
      · have he : mulP (fuel + 1) P k = mulP fuel (ecAdd P P) (k / 2) := by
          show (if k = 0 then PointN.inf
            else if k % 2 = 1 then ecAdd (mulP fuel (ecAdd P P) (k / 2)) P
            else mulP fuel (ecAdd P P) (k / 2)) = _
          rw [if_neg hk0, if_neg hodd]
        rw [he]
        exact hr

lemma g_onCurveN : onCurveN gPoint := by decide

lemma g_canonical : canonical gPoint := ⟨by decide, by decide⟩

/-- The generator as a Mathlib point. -/
def gM : W.Point := toM gPoint g_onCurveN

/-- mulG computes scalar multiples of the generator. -/
lemma mulG_bridge (k : ℕ) (hk : k < 2 ^ 257) :
    ∃ h : onCurveN (mulG k), toM (mulG k) h = k • gM :=
  mulP_bridge 257 gPoint g_onCurveN k hk

lemma canonical_mulG (k : ℕ) : canonical (mulG k) :=
  canonical_mulP 257 gPoint g_canonical k

set_option maxHeartbeats 4000000 in
/-- The group order annihilates the generator, computed by evaluation. -/
lemma mulG_n : mulG secpN = PointN.inf := by decide

set_option linter.constructorNameAsVariable false in
lemma n_smul_gM : secpN • gM = 0 := by
  obtain ⟨h, heq⟩ := mulG_bridge secpN (by norm_num [secpN])
  rw [← heq]
  clear heq
  revert h
  rw [mulG_n]
  intro h
  rfl

/-- Scalars can be reduced mod the group order under mulG semantics. -/
lemma mod_nsmul_gM (m : ℕ) : (m % secpN) • gM = m • gM := by
  conv_rhs => rw [← Nat.div_add_mod m secpN]
  rw [add_nsmul, mul_nsmul, n_smul_gM, nsmul_zero, zero_add]

/-! ### The GLV endomorphism bridge -/

lemma beta_pow_three : ((beta : ℕ) : ZMod secpP) ^ 3 = 1 := by
  have h : ((beta * beta % secpP * beta % secpP : ℕ) : ZMod secpP) = 1 := by
    rw [show beta * beta % secpP * beta % secpP = 1 from by decide]
    norm_num
  rw [← h]
  push_cast [ZMod.natCast_mod]
  ring

lemma beta_ne_zero : ((beta : ℕ) : ZMod secpP) ≠ 0 := by
  intro h
  have h3 := beta_pow_three
  rw [h] at h3
  simp at h3

lemma beta2_cast : ((beta2 : ℕ) : ZMod secpP) = ((beta : ℕ) : ZMod secpP) ^ 2 := by
  rw [show beta2 = beta * beta % secpP from by decide]
  push_cast [ZMod.natCast_mod]
  ring

/-- The coordinate map (x, y) to (beta*x, y) preserves nonsingularity. -/
lemma nonsingular_endo {x y : ZMod secpP} (h : W.Nonsingular x y) :
    W.Nonsingular (((beta : ℕ) : ZMod secpP) * x) y := by
  apply W.nonsingular_of_Δ_ne_zero _ W_delta_ne
  rw [W_equation_iff]
  have heq := (W_equation_iff x y).mp h.1
  linear_combination heq - x ^ 3 * beta_pow_three

/-- The GLV endomorphism on Mathlib points. -/
def phiM : W.Point → W.Point
  | .zero => .zero
  | .some h => .some (nonsingular_endo h)

lemma phiM_zero : phiM 0 = 0 := rfl

lemma slope_endo (x1 x2 y1 y2 : ZMod secpP)
    (hxy : x1 = x2 → y1 ≠ W.negY x2 y2) :
    W.slope (((beta : ℕ) : ZMod secpP) * x1) (((beta : ℕ) : ZMod secpP) * x2) y1 y2 =
      ((beta : ℕ) : ZMod secpP) ^ 2 * W.slope x1 x2 y1 y2 := by
  by_cases hx : x1 = x2
  · have hy : y1 ≠ W.negY x2 y2 := hxy hx
    have hby : ((beta : ℕ) : ZMod secpP) * x1 = ((beta : ℕ) : ZMod secpP) * x2 := by rw [hx]
    have hy' : y1 ≠ W.negY (((beta : ℕ) : ZMod secpP) * x2) y2 := by
      rw [W_negY]
      rw [W_negY] at hy
      exact hy
    rw [WeierstrassCurve.Affine.slope_of_Y_ne hby hy',
        WeierstrassCurve.Affine.slope_of_Y_ne hx hy]
    simp only [Wa1, Wa2, Wa4, W_negY]
    ring
  · have hbx : ((beta : ℕ) : ZMod secpP) * x1 ≠ ((beta : ℕ) : ZMod secpP) * x2 :=
      fun hc => hx (mul_left_cancel₀ beta_ne_zero hc)
    rw [WeierstrassCurve.Affine.slope_of_X_ne hbx,
        WeierstrassCurve.Affine.slope_of_X_ne hx]
    have hne : x1 - x2 ≠ 0 := sub_ne_zero.mpr hx
    have hbne : ((beta : ℕ) : ZMod secpP) * x1 - ((beta : ℕ) : ZMod secpP) * x2 ≠ 0 := by
      intro hc
      apply hne
      have := mul_left_cancel₀ beta_ne_zero (by linear_combination hc :
        ((beta : ℕ) : ZMod secpP) * x1 = ((beta : ℕ) : ZMod secpP) * x2)
      linear_combination this
    field_simp
    linear_combination (-(y1 - y2) * (x1 - x2)) * beta_pow_three

lemma addX_endo (x1 x2 L : ZMod secpP) :
    W.addX (((beta : ℕ) : ZMod secpP) * x1) (((beta : ℕ) : ZMod secpP) * x2)
      (((beta : ℕ) : ZMod secpP) ^ 2 * L) =
    ((beta : ℕ) : ZMod secpP) * W.addX x1 x2 L := by
  simp only [WeierstrassCurve.Affine.addX, Wa1, Wa2]
  linear_combination (((beta : ℕ) : ZMod secpP) * L ^ 2) * beta_pow_three

lemma addY_endo (x1 x2 y1 L : ZMod secpP) :
    W.addY (((beta : ℕ) : ZMod secpP) * x1) (((beta : ℕ) : ZMod secpP) * x2) y1
      (((beta : ℕ) : ZMod secpP) ^ 2 * L) =
    W.addY x1 x2 y1 L := by
  simp only [WeierstrassCurve.Affine.addY, WeierstrassCurve.Affine.negAddY,
    W_negY, addX_endo]
  linear_combination (-(L * (W.addX x1 x2 L - x1))) * beta_pow_three

/-- phiM is additive. -/
lemma phiM_add (P Q : W.Point) : phiM (P + Q) = phiM P + phiM Q := by
  cases P with
  | zero =>
    show phiM (0 + Q) = phiM 0 + phiM Q
    rw [zero_add, phiM_zero, zero_add]
  | @some x1 y1 h1 =>
    cases Q with
    | zero =>
      show phiM (.some h1 + 0) = phiM (.some h1) + phiM 0
      rw [add_zero, phiM_zero, add_zero]
    | @some x2 y2 h2 =>
      by_cases hxy : x1 = x2 ∧ y1 = W.negY x2 y2
      · rw [WeierstrassCurve.Affine.Point.add_of_Y_eq hxy.1 hxy.2]
        rw [show phiM (WeierstrassCurve.Affine.Point.some h1) =
          .some (nonsingular_endo h1) from rfl]
        rw [show phiM (WeierstrassCurve.Affine.Point.some h2) =
          .some (nonsingular_endo h2) from rfl]
        rw [WeierstrassCurve.Affine.Point.add_of_Y_eq (by rw [hxy.1])
          (by rw [W_negY]; rw [W_negY] at hxy; exact hxy.2)]
        rfl
      · push_neg at hxy
        rw [WeierstrassCurve.Affine.Point.add_of_imp hxy]
        have hxy' : ((beta : ℕ) : ZMod secpP) * x1 = ((beta : ℕ) : ZMod secpP) * x2 →
            y1 ≠ W.negY (((beta : ℕ) : ZMod secpP) * x2) y2 := by
          intro hb
          have hx12 : x1 = x2 := mul_left_cancel₀ beta_ne_zero hb
          rw [W_negY]
          have := hxy hx12
          rw [W_negY] at this
          exact this
        rw [show phiM (WeierstrassCurve.Affine.Point.some h1) =
          .some (nonsingular_endo h1) from rfl]
        rw [show phiM (WeierstrassCurve.Affine.Point.some h2) =
          .some (nonsingular_endo h2) from rfl]
        rw [WeierstrassCurve.Affine.Point.add_of_imp hxy']
        rw [show phiM (WeierstrassCurve.Affine.Point.some
          (WeierstrassCurve.Affine.nonsingular_add h1 h2 hxy)) =
          .some (nonsingular_endo
            (WeierstrassCurve.Affine.nonsingular_add h1 h2 hxy)) from rfl]
        exact some_eq_some
          (by rw [slope_endo x1 x2 y1 y2 hxy, addX_endo])
          (by rw [slope_endo x1 x2 y1 y2 hxy, addY_endo]) _ _

lemma phiM_nsmul (k : ℕ) (P : W.Point) : phiM (k • P) = k • phiM P := by
  induction k with
  | zero => rw [zero_nsmul, zero_nsmul]; rfl
  | succ n ih => rw [succ_nsmul, succ_nsmul, phiM_add, ih]

lemma phiM_neg (P : W.Point) : phiM (-P) = -phiM P := by
  cases P with
  | zero =>
    show phiM (-(0 : W.Point)) = -phiM 0
    rw [neg_zero, phiM_zero, neg_zero]
  | @some x y h =>
    rw [WeierstrassCurve.Affine.Point.neg_some]
    rw [show phiM (WeierstrassCurve.Affine.Point.some h) =
      .some (nonsingular_endo h) from rfl]
    rw [WeierstrassCurve.Affine.Point.neg_some]
    rw [show phiM (WeierstrassCurve.Affine.Point.some
      (WeierstrassCurve.Affine.nonsingular_neg h)) =
      .some (nonsingular_endo (WeierstrassCurve.Affine.nonsingular_neg h)) from rfl]
    exact some_eq_some rfl (by rw [W_negY, W_negY]) _ _

/-! ### Endomorphism points at the executable level -/

/-- Endomorphism #1 point (beta*x, y) (checkAddresses, src/Vanity.cpp:
pe1.x.ModMulK1(p.x, beta)). -/
def endoPointN : PointN → PointN
  | .inf => .inf
  | .mk x y => .mk (fmul x beta) y

/-- Endomorphism #2 point (beta2*x, y) (checkAddresses, src/Vanity.cpp:
pe2.x.ModMulK1(p.x, beta2)). -/
def endoPointN2 : PointN → PointN
  | .inf => .inf
  | .mk x y => .mk (fmul x beta2) y

set_option maxHeartbeats 4000000 in
set_option linter.constructorNameAsVariable false in
/-- Evaluation fact: lambda*G has x coordinate beta*gx and y coordinate gy. -/
lemma mulG_lambda : mulG lambda = PointN.mk (fmul genX beta) genY := by decide

lemma toM_endoPointN {P : PointN} (hP : onCurveN P) :
    ∃ h : onCurveN (endoPointN P), toM (endoPointN P) h = phiM (toM P hP) := by
  cases P with
  | inf => exact ⟨trivial, rfl⟩
  | mk x y =>
    have h1 := nonsingular_of_onCurveN hP
    have hns : W.Nonsingular ((fmul x beta : ℕ) : ZMod secpP) ((y : ℕ) : ZMod secpP) := by
      rw [cast_fmul, mul_comm]
      exact nonsingular_endo h1
    refine ⟨(onCurveN_mk_iff _ _).mpr hns.1, ?_⟩
    exact some_eq_some (by rw [cast_fmul]; ring) rfl _ _

lemma toM_endoPointN2 {P : PointN} (hP : onCurveN P) :
    ∃ h : onCurveN (endoPointN2 P), toM (endoPointN2 P) h = phiM (phiM (toM P hP)) := by
  cases P with
  | inf => exact ⟨trivial, rfl⟩
  | mk x y =>
    have h1 := nonsingular_of_onCurveN hP
    have hns : W.Nonsingular ((fmul x beta2 : ℕ) : ZMod secpP) ((y : ℕ) : ZMod secpP) := by
      rw [cast_fmul, beta2_cast, show ((x : ℕ) : ZMod secpP) *
        ((beta : ℕ) : ZMod secpP) ^ 2 = ((beta : ℕ) : ZMod secpP) *
        (((beta : ℕ) : ZMod secpP) * x) from by ring]
      exact nonsingular_endo (nonsingular_endo h1)
    refine ⟨(onCurveN_mk_iff _ _).mpr hns.1, ?_⟩
    exact some_eq_some (by rw [cast_fmul, beta2_cast]; ring) rfl _ _

lemma canonical_endoPointN {P : PointN} (hP : canonical P) :
    canonical (endoPointN P) := by
  cases P with
  | inf => exact trivial
  | mk x y => exact ⟨Nat.mod_lt _ secpP_pos, hP.2⟩

lemma canonical_endoPointN2 {P : PointN} (hP : canonical P) :
    canonical (endoPointN2 P) := by
  cases P with
  | inf => exact trivial
  | mk x y => exact ⟨Nat.mod_lt _ secpP_pos, hP.2⟩

lemma canonical_pointNegY {P : PointN} (hP : canonical P) :
    canonical (pointNegY P) := by
  cases P with
  | inf => exact trivial
  | mk x y => exact ⟨hP.1, Nat.mod_lt _ secpP_pos⟩

lemma toM_pointNegY {P : PointN} (hP : onCurveN P) :
    ∃ h : onCurveN (pointNegY P), toM (pointNegY P) h = -(toM P hP) := by
  cases P with
  | inf => exact ⟨trivial, by show (0 : W.Point) = -(0 : W.Point); rw [neg_zero]⟩
  | mk x y =>
    have h1 := nonsingular_of_onCurveN hP
    have hns : W.Nonsingular ((x : ℕ) : ZMod secpP) ((fneg y : ℕ) : ZMod secpP) := by
      rw [cast_fneg, ← W_negY]
      exact WeierstrassCurve.Affine.nonsingular_neg h1
    refine ⟨(onCurveN_mk_iff _ _).mpr hns.1, ?_⟩
    rw [show toM (PointN.mk x y) hP = WeierstrassCurve.Affine.Point.some h1 from rfl,
      WeierstrassCurve.Affine.Point.neg_some]
    exact some_eq_some rfl (by rw [cast_fneg, W_negY]) _ _

set_option linter.constructorNameAsVariable false in
/-- phiM sends the generator to lambda times the generator. -/
lemma phiM_gM : phiM gM = lambda • gM := by
  obtain ⟨h, heq⟩ := mulG_bridge lambda (by norm_num [lambda])
  rw [← heq]
  clear heq
  revert h
  rw [mulG_lambda]
  intro h
  rw [show phiM gM = WeierstrassCurve.Affine.Point.some
    (nonsingular_endo (nonsingular_of_onCurveN g_onCurveN)) from rfl]
  exact (some_eq_some (by rw [cast_fmul]; ring) rfl _ _).symm

lemma nsmul_gM_congr {a b : ℕ} (h : a % secpN = b % secpN) : a • gM = b • gM := by
  rw [← mod_nsmul_gM a, ← mod_nsmul_gM b, h]

lemma sub_nsmul_gM_neg {m : ℕ} (hm : m ≤ secpN) : (secpN - m) • gM = -(m • gM) := by
  apply eq_neg_of_add_eq_zero_left
  rw [← add_nsmul]
  rw [show secpN - m + m = secpN from by omega]
  exact n_smul_gM

lemma phiM_nsmul_gM (k : ℕ) : phiM (k • gM) = (lambda * k) • gM := by
  rw [phiM_nsmul, phiM_gM, ← mul_nsmul]

/-! ### The three endomorphism indices -/

/-- The endomorphism point selection by index: identity, endo #1, endo #2. -/
def endoApply (e : ℕ) (P : PointN) : PointN :=
  match e with
  | 1 => endoPointN P
  | 2 => endoPointN2 P
  | _ => P

/-- The endomorphism index on Mathlib points: identity, phiM, phiM squared. -/
def phiE (e : ℕ) (P : W.Point) : W.Point :=
  match e with
  | 1 => phiM P
  | 2 => phiM (phiM P)
  | _ => P

lemma phiE_add (e : ℕ) (P Q : W.Point) : phiE e (P + Q) = phiE e P + phiE e Q := by
  rcases e with _ | _ | _ | e
  · rfl
  · exact phiM_add P Q
  · show phiM (phiM (P + Q)) = phiM (phiM P) + phiM (phiM Q)
    rw [phiM_add, phiM_add]
  · rfl

lemma phiE_neg (e : ℕ) (P : W.Point) : phiE e (-P) = -phiE e P := by
  rcases e with _ | _ | _ | e
  · rfl
  · exact phiM_neg P
  · show phiM (phiM (-P)) = -phiM (phiM P)
    rw [phiM_neg, phiM_neg]
  · rfl

lemma toM_endoApply {P : PointN} (hP : onCurveN P) (e : ℕ) :
    ∃ h : onCurveN (endoApply e P), toM (endoApply e P) h = phiE e (toM P hP) := by
  rcases e with _ | _ | _ | e
  · exact ⟨hP, rfl⟩
  · exact toM_endoPointN hP
  · exact toM_endoPointN2 hP
  · exact ⟨hP, rfl⟩

lemma canonical_endoApply (e : ℕ) {P : PointN} (hP : canonical P) :
    canonical (endoApply e P) := by
  rcases e with _ | _ | _ | e
  · exact hP
  · exact canonical_endoPointN hP
  · exact canonical_endoPointN2 hP
  · exact hP

lemma endoK_le {a : ℕ} (ha : a ≤ secpN) (e : ℕ) : endoK a e ≤ secpN := by
  rcases e with _ | _ | _ | e
  · exact ha
  · exact le_of_lt (Nat.mod_lt _ (by norm_num [secpN]))
  · exact le_of_lt (Nat.mod_lt _ (by norm_num [secpN]))
  · exact ha

/-- The endomorphism scalar multiplication matches the endomorphism index map
on multiples of the generator. -/
lemma endoK_nsmul (a : ℕ) (e : ℕ) : (endoK a e) • gM = phiE e (a • gM) := by
  rcases e with _ | _ | _ | e
  · rfl
  · show (a * lambda % secpN) • gM = phiM (a • gM)
    rw [mod_nsmul_gM, phiM_nsmul_gM, Nat.mul_comm a lambda]
  · show (a * lambda2 % secpN) • gM = phiM (phiM (a • gM))
    rw [phiM_nsmul_gM, phiM_nsmul_gM]
    apply nsmul_gM_congr
    have hcast : ((a * lambda2 % secpN : ℕ) : ZMod secpN) =
        ((lambda * (lambda * a) : ℕ) : ZMod secpN) := by
      push_cast [ZMod.natCast_mod]
      rw [show ((lambda2 : ℕ) : ZMod secpN) =
        ((lambda : ℕ) : ZMod secpN) * ((lambda : ℕ) : ZMod secpN) from by
          rw [show lambda2 = lambda * lambda % secpN from by decide]
          push_cast [ZMod.natCast_mod]
          ring]
      ring
    exact (ZMod.natCast_eq_natCast_iff _ _ _).mp hcast
  · rfl

lemma reconKey_eq (key : ℕ) (incr : ℤ) (endo : ℕ) :
    reconKey key incr endo =
      endoK (if incr < 0 then secpN - (key + incr.natAbs) else key + incr.natAbs)
        endo := by
  by_cases hc : incr < 0 <;> simp [reconKey, hc]

lemma spTransform_eq (incr : ℤ) (e : ℕ) (q : PointN) :
    spTransform incr e q = endoApply e (if incr < 0 then pointNegY q else q) := by
  by_cases hc : incr < 0 <;>
    rcases e with _ | _ | _ | e <;>
      cases q <;>
        simp [spTransform, endoApply, pointNegY, endoPointN, endoPointN2, hc]

/-! ### Claim C1: reconstruction of a match record -/

lemma secpN_lt : secpN < 2 ^ 257 := by norm_num [secpN]

/-- Core reconstruction identity with no offset key: scalar-side negation and
endomorphism multiplication match point-side y-negation and coordinate map. -/
lemma recon_core (m e : ℕ) (c : Prop) [Decidable c] (hm : m ≤ secpN) :
    mulG (endoK (if c then secpN - m else m) e) =
      endoApply e (if c then pointNegY (mulG m) else mulG m) := by
  have hm2 : m < 2 ^ 257 := lt_of_le_of_lt hm secpN_lt
  by_cases hc : c
  · rw [if_pos hc, if_pos hc]
    obtain ⟨hb, hbeq⟩ := mulG_bridge m hm2
    obtain ⟨hneg, hneg_eq⟩ := toM_pointNegY hb
    obtain ⟨hE, hE_eq⟩ := toM_endoApply hneg e
    obtain ⟨hL, hL_eq⟩ := mulG_bridge (endoK (secpN - m) e)
      (lt_of_le_of_lt (endoK_le (by omega) e) secpN_lt)
    apply toM_inj hL hE (canonical_mulG _)
      (canonical_endoApply e (canonical_pointNegY (canonical_mulG m)))
    rw [hL_eq, hE_eq, hneg_eq, hbeq, endoK_nsmul, sub_nsmul_gM_neg hm]
  · rw [if_neg hc, if_neg hc]
    obtain ⟨hb, hbeq⟩ := mulG_bridge m hm2
    obtain ⟨hE, hE_eq⟩ := toM_endoApply hb e
    obtain ⟨hL, hL_eq⟩ := mulG_bridge (endoK m e)
      (lt_of_le_of_lt (endoK_le hm e) secpN_lt)
    apply toM_inj hL hE (canonical_mulG _) (canonical_endoApply e (canonical_mulG m))
    rw [hL_eq, hE_eq, hbeq, endoK_nsmul]

/-- Core reconstruction identity in offset mode. -/
lemma recon_core_sp (m e : ℕ) (c : Prop) [Decidable c] (hm : m ≤ secpN)
    {q : PointN} (hq : onCurveN q) (hqc : canonical q) :
    ecAdd (mulG (endoK (if c then secpN - m else m) e))
        (endoApply e (if c then pointNegY q else q)) =
      endoApply e
        (if c then pointNegY (ecAdd (mulG m) q) else ecAdd (mulG m) q) := by
  have hm2 : m < 2 ^ 257 := lt_of_le_of_lt hm secpN_lt
  by_cases hc : c
  · rw [if_pos hc, if_pos hc, if_pos hc]
    obtain ⟨hb, hbeq⟩ := mulG_bridge m hm2
    obtain ⟨hqn, hqn_eq⟩ := toM_pointNegY hq
    obtain ⟨hqe, hqe_eq⟩ := toM_endoApply hqn e
    obtain ⟨hL1, hL1_eq⟩ := mulG_bridge (endoK (secpN - m) e)
      (lt_of_le_of_lt (endoK_le (by omega) e) secpN_lt)
    obtain ⟨hadd, hadd_eq⟩ := ecAdd_bridge hL1 hqe
    obtain ⟨hab, hab_eq⟩ := ecAdd_bridge hb hq
    obtain ⟨habn, habn_eq⟩ := toM_pointNegY hab
    obtain ⟨habe, habe_eq⟩ := toM_endoApply habn e
    apply toM_inj hadd habe
      (canonical_ecAdd (canonical_mulG _)
        (canonical_endoApply e (canonical_pointNegY hqc)))
      (canonical_endoApply e (canonical_pointNegY
        (canonical_ecAdd (canonical_mulG m) hqc)))
    rw [hadd_eq, hL1_eq, hqe_eq, hqn_eq, habe_eq, habn_eq, hab_eq, hbeq,
      endoK_nsmul, sub_nsmul_gM_neg hm, neg_add, phiE_add]
  · rw [if_neg hc, if_neg hc, if_neg hc]
    obtain ⟨hb, hbeq⟩ := mulG_bridge m hm2
    obtain ⟨hqe, hqe_eq⟩ := toM_endoApply hq e
    obtain ⟨hL1, hL1_eq⟩ := mulG_bridge (endoK m e)
      (lt_of_le_of_lt (endoK_le hm e) secpN_lt)
    obtain ⟨hadd, hadd_eq⟩ := ecAdd_bridge hL1 hqe
    obtain ⟨hab, hab_eq⟩ := ecAdd_bridge hb hq
    obtain ⟨habe, habe_eq⟩ := toM_endoApply hab e
    apply toM_inj hadd habe
      (canonical_ecAdd (canonical_mulG _) (canonical_endoApply e hqc))
      (canonical_endoApply e (canonical_ecAdd (canonical_mulG m) hqc))
    rw [hadd_eq, hL1_eq, hqe_eq, habe_eq, hab_eq, hbeq, endoK_nsmul, phiE_add]

/-- Endomorphism #1 on a full multiple of G at the executable level. -/
lemma endo1_mulG (k : ℕ) (hk : k < 2 ^ 257) :
    endoPointN (mulG k) = mulG (lambda * k % secpN) := by
  obtain ⟨h1, he1⟩ := mulG_bridge k hk
  obtain ⟨h2, he2⟩ := toM_endoPointN h1
  obtain ⟨h3, he3⟩ := mulG_bridge (lambda * k % secpN)
    (lt_trans (Nat.mod_lt _ (by norm_num [secpN])) secpN_lt)
  apply toM_inj h2 h3 (canonical_endoPointN (canonical_mulG k)) (canonical_mulG _)
  rw [he2, he1, he3, phiM_nsmul_gM, mod_nsmul_gM]

/-- Validity of an optional start public key: on curve with canonical
coordinates. -/
def spOk : Option PointN → Prop
  | some q => onCurveN q ∧ canonical q
  | none => True

instance spOk.decPred : DecidablePred spOk := fun s =>
  match s with
  | some q => inferInstanceAs (Decidable (onCurveN q ∧ canonical q))
  | none => .isTrue trivial

/-- Modelled from the spec: the base group point of a match record, the
(k0+|incr|)-th multiple of G, plus the starting public key in offset mode. -/
def matchedBase (key : ℕ) (incr : ℤ) : Option PointN → PointN
  | some q => ecAdd (mulG (key + incr.natAbs)) q
  | none => mulG (key + incr.natAbs)

/-- Modelled from the spec: the point whose quantity the search matched for
record (k0, incr, endo): the base point, y-negated for negative incr (the
symmetric point), with the endomorphism coordinate map per the endo index. -/
def matchedPoint (key : ℕ) (incr : ℤ) (endo : ℕ) (sp : Option PointN) : PointN :=
  endoApply endo (if incr < 0 then pointNegY (matchedBase key incr sp)
    else matchedBase key incr sp)

/-- C1: reconstructing a match record (k0, incr, endo) by adding incr (modular
negation of k0+|incr| for negative incr) and multiplying by lambda or lambda
squared mod n per the endo index, then multiplying by G and adding the
transformed start key in offset mode, reproduces the matched point, hence any
quantity (hash160 or X) derived from it. -/
theorem c1_reconstruction (key : ℕ) (incr : ℤ) (endo : ℕ) (sp : Option PointN)
    (hrange : key + incr.natAbs ≤ secpN) (hsp : spOk sp) :
    reconPoint key incr endo sp = matchedPoint key incr endo sp ∧
    ∀ h160 : PointN → ℕ,
      h160 (reconPoint key incr endo sp) = h160 (matchedPoint key incr endo sp) := by
  suffices hmain : reconPoint key incr endo sp = matchedPoint key incr endo sp by
    exact ⟨hmain, fun h160 => by rw [hmain]⟩
  rcases sp with _ | q
  · show mulG (reconKey key incr endo) = matchedPoint key incr endo none
    rw [reconKey_eq]
    exact recon_core (key + incr.natAbs) endo (incr < 0) hrange
  · show ecAdd (mulG (reconKey key incr endo)) (spTransform incr endo q) =
      matchedPoint key incr endo (some q)
    rw [reconKey_eq, spTransform_eq]
    exact recon_core_sp (key + incr.natAbs) endo (incr < 0) hrange hsp.1 hsp.2

set_option linter.constructorNameAsVariable false in
theorem c1_reconstruction_witness :
    ((12345 : ℕ) + (-7 : ℤ).natAbs ≤ secpN ∧ spOk (none : Option PointN)) ∧
    (reconPoint 12345 (-7) 1 none = matchedPoint 12345 (-7) 1 none ∧
      ∀ h160 : PointN → ℕ, h160 (reconPoint 12345 (-7) 1 none) =
        h160 (matchedPoint 12345 (-7) 1 none)) :=
  ⟨⟨by norm_num [secpN], trivial⟩,
    c1_reconstruction 12345 (-7) 1 none (by norm_num [secpN]) trivial⟩

/-- C6: the endomorphism constants are cube roots of unity, the squared
constants match, beta2 and lambda2 are the inverses of beta and lambda, and
the coordinate map (x, y) to (beta*x, y) multiplies the scalar by lambda. -/
theorem c6_endomorphism_constants :
    beta * beta % secpP * beta % secpP = 1 ∧
    lambda * lambda % secpN * lambda % secpN = 1 ∧
    beta2 = beta * beta % secpP ∧
    lambda2 = lambda * lambda % secpN ∧
    beta * beta2 % secpP = 1 ∧
    lambda * lambda2 % secpN = 1 ∧
    ∀ k : ℕ, k < 2 ^ 257 → endoPointN (mulG k) = mulG (lambda * k % secpN) :=
  ⟨by decide, by decide, by decide, by decide, by decide, by decide,
    fun k hk => endo1_mulG k hk⟩

set_option linter.constructorNameAsVariable false in
theorem c6_endomorphism_constants_witness :
    (5 : ℕ) < 2 ^ 257 ∧ endoPointN (mulG 5) = mulG (lambda * 5 % secpN) :=
  ⟨by norm_num, c6_endomorphism_constants.2.2.2.2.2.2 5 (by norm_num)⟩

/-! ### Claim C8: the pass advance of the CPU batch engine -/

/-- The next-start-point chord computation of FindKeyCPU (src/Vanity.cpp),
in source operation order: dy = _2Gn.y - startP.y; s = dy * dx; p2 = s^2;
rx = -startP.x + p2 - _2Gn.x; ry = (_2Gn.x - rx) * s - _2Gn.y. -/
def cpuNextStart (px py tx ty dxInv : ℕ) : ℕ × ℕ :=
  let dy := fsub ty py
  let s := fmul dy dxInv
  let p2 := fmul s s
  let rx := fsub (fadd (fneg px) p2) tx
  let ry := fsub (fmul (fsub tx rx) s) ty
  (rx, ry)

/-- One pass of the CPU engine, reduced to its state update (FindKeyCPU,
src/Vanity.cpp): the base key advances by CPU_GRP_SIZE and startP is replaced
by the chord sum with _2Gn computed from the last batched inverse. -/
def cpuPassAdvance (key : ℕ) (P twoG : PointN) : ℕ × PointN :=
  match P, twoG with
  | .mk px py, .mk tx ty =>
      (key + cpuGrpSize,
        .mk (cpuNextStart px py tx ty (finv (fsub tx px))).1
            (cpuNextStart px py tx ty (finv (fsub tx px))).2)
  | _, _ => (key + cpuGrpSize, .inf)

/-- The CPU worker invariant point (getCPUStartingKey/FindKeyCPU,
src/Vanity.cpp): the (key)-th multiple of G, plus the starting public key in
offset mode (startP = AddDirect(startP, startPubKey)). -/
def cpuStartPoint (k : ℕ) : Option PointN → PointN
  | some q => ecAdd (mulG k) q
  | none => mulG k

/-- The reversed-orientation chord slope of cpuNextStart matches Mathlib's
slope. -/
lemma slope_cpuNext (px py tx ty : ℕ) (hne : (px : ZMod secpP) ≠ tx) :
    ((fmul (fsub ty py) (finv (fsub tx px)) : ℕ) : ZMod secpP) =
      W.slope (px : ZMod secpP) tx py ty := by
  have h0 : ((fsub tx px : ℕ) : ZMod secpP) ≠ 0 := by
    rw [cast_fsub]
    exact sub_ne_zero.mpr (fun hc => hne (by linear_combination -hc))
  rw [cast_fmul, cast_finv_inv _ h0, cast_fsub, cast_fsub,
    WeierstrassCurve.Affine.slope_of_X_ne hne, div_eq_mul_inv]
  rw [show ((py : ℕ) : ZMod secpP) - ty = -(((ty : ℕ) : ZMod secpP) - py) from by ring,
    show ((px : ℕ) : ZMod secpP) - tx = -(((tx : ℕ) : ZMod secpP) - px) from by ring,
    inv_neg, neg_mul_neg]

/-- The cpuNextStart chord computation tracks the Mathlib group addition. -/
lemma cpuNextStart_bridge {px py tx ty : ℕ}
    (hP : onCurveN (.mk px py)) (hQ : onCurveN (.mk tx ty))
    (hx : fsub tx px ≠ 0) :
    ∃ h : onCurveN (.mk (cpuNextStart px py tx ty (finv (fsub tx px))).1
        (cpuNextStart px py tx ty (finv (fsub tx px))).2),
      toM (.mk (cpuNextStart px py tx ty (finv (fsub tx px))).1
        (cpuNextStart px py tx ty (finv (fsub tx px))).2) h =
      toM (.mk px py) hP + toM (.mk tx ty) hQ := by
  have h1 := nonsingular_of_onCurveN hP
  have h2 := nonsingular_of_onCurveN hQ
  have hne : ((px : ℕ) : ZMod secpP) ≠ ((tx : ℕ) : ZMod secpP) := by
    intro hc
    exact hx ((fsub_eq_zero_iff tx px).mpr hc.symm)
  have hs := slope_cpuNext px py tx ty hne
  have hxr : (((cpuNextStart px py tx ty (finv (fsub tx px))).1 : ℕ) : ZMod secpP) =
      W.addX (px : ZMod secpP) (tx : ZMod secpP)
        (W.slope (px : ZMod secpP) tx py ty) := by
    show ((fsub (fadd (fneg px) (fmul (fmul (fsub ty py) (finv (fsub tx px)))
      (fmul (fsub ty py) (finv (fsub tx px))))) tx : ℕ) : ZMod secpP) = _
    rw [cast_fsub, cast_fadd, cast_fneg, cast_fmul, hs]
    simp only [WeierstrassCurve.Affine.addX, Wa1, Wa2]
    ring
  have hrel : W.slope (px : ZMod secpP) tx py ty *
      (((px : ℕ) : ZMod secpP) - tx) = ((py : ℕ) : ZMod secpP) - ty := by
    rw [WeierstrassCurve.Affine.slope_of_X_ne hne]
    exact div_mul_cancel₀ _ (sub_ne_zero.mpr hne)
  have hyr : (((cpuNextStart px py tx ty (finv (fsub tx px))).2 : ℕ) : ZMod secpP) =
      W.addY (px : ZMod secpP) (tx : ZMod secpP) (py : ZMod secpP)
        (W.slope (px : ZMod secpP) tx py ty) := by
    show ((fsub (fmul (fsub tx (fsub (fadd (fneg px) (fmul (fmul (fsub ty py)
      (finv (fsub tx px))) (fmul (fsub ty py) (finv (fsub tx px))))) tx))
      (fmul (fsub ty py) (finv (fsub tx px)))) ty : ℕ) : ZMod secpP) = _
    rw [cast_fsub, cast_fmul, cast_fsub, cast_fsub, cast_fadd, cast_fneg,
      cast_fmul, hs]
    simp only [WeierstrassCurve.Affine.addY, WeierstrassCurve.Affine.negAddY,
      WeierstrassCurve.Affine.addX, W_negY, Wa1, Wa2]
    linear_combination (-1 : ZMod secpP) * hrel
  have hns : W.Nonsingular
      (((cpuNextStart px py tx ty (finv (fsub tx px))).1 : ℕ) : ZMod secpP)
      (((cpuNextStart px py tx ty (finv (fsub tx px))).2 : ℕ) : ZMod secpP) := by
    rw [hxr, hyr]
    exact WeierstrassCurve.Affine.nonsingular_add h1 h2 fun hc => (hne hc).elim
  refine ⟨(onCurveN_mk_iff _ _).mpr hns.1, ?_⟩
  rw [show toM (PointN.mk px py) hP = WeierstrassCurve.Affine.Point.some h1 from rfl]
  rw [show toM (PointN.mk tx ty) hQ = WeierstrassCurve.Affine.Point.some h2 from rfl]
  rw [WeierstrassCurve.Affine.Point.add_of_X_ne hne]
  exact some_eq_some hxr hyr _ _

lemma toM_congr {P Q : PointN} (hPQ : P = Q) (hP : onCurveN P) (hQ : onCurveN Q) :
    toM P hP = toM Q hQ := by
  subst hPQ
  rfl

/-- C8: a CPU pass preserves the invariant startP = (key + HALF)*G, plus
startPubKey in offset mode: the key grows by CPU_GRP_SIZE and the next start
point, computed with the affine chord formula against the precomputed
CPU_GRP_SIZE*G using the last batched inverse, is (key + CPU_GRP_SIZE +
HALF)*G plus the same optional start public key. -/
theorem c8_cpu_pass_invariant (key px py tx ty : ℕ) (sp : Option PointN)
    (hkey : key + cpuGrpSize / 2 + cpuGrpSize < 2 ^ 257)
    (hsp : spOk sp)
    (hstart : PointN.mk px py = cpuStartPoint (key + cpuGrpSize / 2) sp)
    (h2g : PointN.mk tx ty = mulG cpuGrpSize)
    (hx : fsub tx px ≠ 0) :
    (cpuPassAdvance key (PointN.mk px py) (PointN.mk tx ty)).1 = key + cpuGrpSize ∧
    (cpuPassAdvance key (PointN.mk px py) (PointN.mk tx ty)).2 =
      cpuStartPoint (key + cpuGrpSize + cpuGrpSize / 2) sp := by
  constructor
  · rfl
  · obtain ⟨hP0, hP0eq⟩ := mulG_bridge (key + cpuGrpSize / 2) (by
      have h1 : cpuGrpSize = 1024 := rfl
      omega)
    obtain ⟨hQ0, hQ0eq⟩ := mulG_bridge cpuGrpSize (by norm_num [cpuGrpSize])
    have honQ : onCurveN (PointN.mk tx ty) := h2g ▸ hQ0
    rcases sp with _ | q
    · have hstart2 : PointN.mk px py = mulG (key + cpuGrpSize / 2) :=
        hstart.trans rfl
      have honP : onCurveN (PointN.mk px py) := hstart2 ▸ hP0
      obtain ⟨hres, hres_eq⟩ := cpuNextStart_bridge honP honQ hx
      obtain ⟨hfin, hfin_eq⟩ := mulG_bridge (key + cpuGrpSize + cpuGrpSize / 2) (by
        have h1 : cpuGrpSize = 1024 := rfl
        omega)
      show PointN.mk (cpuNextStart px py tx ty (finv (fsub tx px))).1
        (cpuNextStart px py tx ty (finv (fsub tx px))).2 =
        mulG (key + cpuGrpSize + cpuGrpSize / 2)
      apply toM_inj hres hfin
        ⟨Nat.mod_lt _ secpP_pos, Nat.mod_lt _ secpP_pos⟩
        (canonical_mulG _)
      rw [hres_eq, hfin_eq, toM_congr hstart2 honP hP0, hP0eq,
        toM_congr h2g honQ hQ0, hQ0eq, ← add_nsmul,
        show key + cpuGrpSize / 2 + cpuGrpSize = key + cpuGrpSize + cpuGrpSize / 2
          from by omega]
    · have hstart2 : PointN.mk px py = ecAdd (mulG (key + cpuGrpSize / 2)) q :=
        hstart.trans rfl
      obtain ⟨hS0, hS0eq⟩ := ecAdd_bridge hP0 hsp.1
      have honP : onCurveN (PointN.mk px py) := hstart2 ▸ hS0
      obtain ⟨hres, hres_eq⟩ := cpuNextStart_bridge honP honQ hx
      obtain ⟨hF0, hF0eq⟩ := mulG_bridge (key + cpuGrpSize + cpuGrpSize / 2) (by
        have h1 : cpuGrpSize = 1024 := rfl
        omega)
      obtain ⟨hfin, hfin_eq⟩ := ecAdd_bridge hF0 hsp.1
      show PointN.mk (cpuNextStart px py tx ty (finv (fsub tx px))).1
        (cpuNextStart px py tx ty (finv (fsub tx px))).2 =
        ecAdd (mulG (key + cpuGrpSize + cpuGrpSize / 2)) q
      apply toM_inj hres hfin
        ⟨Nat.mod_lt _ secpP_pos, Nat.mod_lt _ secpP_pos⟩
        (canonical_ecAdd (canonical_mulG _) hsp.2)
      rw [hres_eq, hfin_eq, toM_congr hstart2 honP hS0, hS0eq, hP0eq,
        toM_congr h2g honQ hQ0, hQ0eq, hF0eq, add_right_comm, ← add_nsmul,
        show key + cpuGrpSize / 2 + cpuGrpSize = key + cpuGrpSize + cpuGrpSize / 2
          from by omega]

set_option maxHeartbeats 8000000 in
set_option linter.constructorNameAsVariable false in
theorem c8_cpu_pass_invariant_witness :
    ((0 + cpuGrpSize / 2 + cpuGrpSize < 2 ^ 257) ∧
      spOk (some (PointN.mk
        112711660439710606056748659173929673102114977341539408544630613555209775888121
        25583027980570883691656905877401976406448868254816295069919888960541586679410)) ∧
      (PointN.mk
        59508024441882239635450194328503315553998351760906079939947489105706013531807
        30112637220282991104308429398023056683786774663293739243353117894053240113306 =
        cpuStartPoint (0 + cpuGrpSize / 2) (some (PointN.mk
          112711660439710606056748659173929673102114977341539408544630613555209775888121
          25583027980570883691656905877401976406448868254816295069919888960541586679410))) ∧
      (PointN.mk
        16339661702852967382840638396154683021742565846854739320600712521008743256863
        36728284022334234592863792440353097018527397507662959793213172092233334129261 =
        mulG cpuGrpSize) ∧
      fsub 16339661702852967382840638396154683021742565846854739320600712521008743256863
        59508024441882239635450194328503315553998351760906079939947489105706013531807 ≠ 0) ∧
    ((cpuPassAdvance 0
        (PointN.mk
          59508024441882239635450194328503315553998351760906079939947489105706013531807
          30112637220282991104308429398023056683786774663293739243353117894053240113306)
        (PointN.mk
          16339661702852967382840638396154683021742565846854739320600712521008743256863
          36728284022334234592863792440353097018527397507662959793213172092233334129261)).1 =
      0 + cpuGrpSize ∧
     (cpuPassAdvance 0
        (PointN.mk
          59508024441882239635450194328503315553998351760906079939947489105706013531807
          30112637220282991104308429398023056683786774663293739243353117894053240113306)
        (PointN.mk
          16339661702852967382840638396154683021742565846854739320600712521008743256863
          36728284022334234592863792440353097018527397507662959793213172092233334129261)).2 =
      cpuStartPoint (0 + cpuGrpSize + cpuGrpSize / 2) (some (PointN.mk
        112711660439710606056748659173929673102114977341539408544630613555209775888121
        25583027980570883691656905877401976406448868254816295069919888960541586679410))) := by
  have h0 : 0 + cpuGrpSize / 2 + cpuGrpSize < 2 ^ 257 := by norm_num [cpuGrpSize]
  have hsp : spOk (some (PointN.mk
      112711660439710606056748659173929673102114977341539408544630613555209775888121
      25583027980570883691656905877401976406448868254816295069919888960541586679410)) := by decide
  have h1 : PointN.mk
      59508024441882239635450194328503315553998351760906079939947489105706013531807
      30112637220282991104308429398023056683786774663293739243353117894053240113306 =
      cpuStartPoint (0 + cpuGrpSize / 2) (some (PointN.mk
        112711660439710606056748659173929673102114977341539408544630613555209775888121
        25583027980570883691656905877401976406448868254816295069919888960541586679410)) := by decide
  have h2 : PointN.mk
      16339661702852967382840638396154683021742565846854739320600712521008743256863
      36728284022334234592863792440353097018527397507662959793213172092233334129261 =
      mulG cpuGrpSize := by decide
  have h3 : fsub 16339661702852967382840638396154683021742565846854739320600712521008743256863
      59508024441882239635450194328503315553998351760906079939947489105706013531807 ≠ 0 := by decide
  exact ⟨⟨h0, hsp, h1, h2, h3⟩,
    c8_cpu_pass_invariant 0 _ _ _ _ _ h0 hsp h1 h2 h3⟩
end VanityMask
